import Mathlib

/-!
Verification of the vial-cash ledger core: a shallow embedding of the
tokenizer-feed/parser and the ledger engine of `cash.py`, with theorems
about its documented behaviour.  Strings are modelled as lists of
characters, Python floats as exact rationals, Python dicts as association
lists, and Python exceptions as explicit result constructors.
-/

set_option maxHeartbeats 1000000

abbrev Str := List Char

/-- Lookup in an association list modelling a Python dict (first match). -/
def alookup {α : Type} : List (Str × α) → Str → Option α
  | [], _ => none
  | (k, v) :: rest, q => if k = q then some v else alookup rest q

/-- Assignment `d[k] = v` on a Python dict: overwrite in place or append. -/
def aset {α : Type} : List (Str × α) → Str → α → List (Str × α)
  | [], q, v => [(q, v)]
  | (k, w) :: rest, q, v => if k = q then (q, v) :: rest else (k, w) :: aset rest q v

theorem alookup_aset {α : Type} (l : List (Str × α)) (q : Str) (v : α) :
    alookup (aset l q v) q = some v := by
  induction l with
  | nil => simp [aset, alookup]
  | cons e rest ih =>
    obtain ⟨k, w⟩ := e
    by_cases h : k = q
    · simp [aset, h, alookup]
    · simp [aset, h, alookup, ih]

theorem alookup_aset_ne {α : Type} (l : List (Str × α)) (q p : Str) (v : α) (h : p ≠ q) :
    alookup (aset l q v) p = alookup l p := by
  have hq : ¬ q = p := fun hh => h hh.symm
  induction l with
  | nil => simp [aset, alookup, hq]
  | cons e rest ih =>
    obtain ⟨k, w⟩ := e
    by_cases hk : k = q
    · subst hk
      simp [aset, alookup, hq]
    · simp [aset, hk, alookup, ih]

/-! ### Dates (`datetime.date`): validated triples of integers. -/

structure PDate where
  year : Int
  month : Int
  day : Int
deriving DecidableEq

/-- Proleptic Gregorian leap-year rule used by `datetime`. -/
def isLeap (y : Int) : Bool :=
  decide (y % 4 = 0 ∧ (¬ y % 100 = 0 ∨ y % 400 = 0))

def daysInMonth (y m : Int) : Int :=
  if m = 2 then (if isLeap y then 29 else 28)
  else if m = 4 ∨ m = 6 ∨ m = 9 ∨ m = 11 then 30
  else 31

/-- `datetime.date` field validation. -/
def PDate.valid (d : PDate) : Bool :=
  decide (1 ≤ d.year ∧ d.year ≤ 9999 ∧ 1 ≤ d.month ∧ d.month ≤ 12 ∧
          1 ≤ d.day ∧ d.day ≤ daysInMonth d.year d.month)

/-- Date construction, `None` when `datetime` would raise `ValueError`. -/
def mkDate (y m d : Int) : Option PDate :=
  if PDate.valid ⟨y, m, d⟩ then some ⟨y, m, d⟩ else none

/-- `dt.replace(year=y, month=m)` keeping the day. -/
def PDate.replaceYM (dt : PDate) (y m : Int) : Option PDate := mkDate y m dt.day

/-- `dt.replace(day=d)` keeping year and month. -/
def PDate.replaceDay (dt : PDate) (d : Int) : Option PDate := mkDate dt.year dt.month d

/-- `next_month`: `yd, month = divmod(dt.month, 12); dt.replace(dt.year+yd, month+1)`. -/
def next_month (dt : PDate) : Option PDate :=
  dt.replaceYM (dt.year + dt.month / 12) (dt.month % 12 + 1)

/-- `prev_month`: `yd, month = divmod(dt.month - 2, 12); dt.replace(dt.year+yd, month+1)`. -/
def prev_month (dt : PDate) : Option PDate :=
  dt.replaceYM (dt.year + (dt.month - 2) / 12) ((dt.month - 2) % 12 + 1)

/-- `month_range`: first day of the month and first day of the next month. -/
def month_range (dt : PDate) : Option (PDate × PDate) :=
  match dt.replaceDay 1 with
  | none => none
  | some start =>
    match next_month start with
    | none => none
    | some stop => some (start, stop)

/-- Python `date` comparison `a < b` (lexicographic on year, month, day). -/
def dateLt (a b : PDate) : Bool :=
  decide (a.year < b.year ∨ (a.year = b.year ∧
    (a.month < b.month ∨ (a.month = b.month ∧ a.day < b.day))))

/-- Python `date` comparison `a ≤ b`. -/
def dateLe (a b : PDate) : Bool :=
  decide (a.year < b.year ∨ (a.year = b.year ∧
    (a.month < b.month ∨ (a.month = b.month ∧ a.day ≤ b.day))))

/-- The sentinel epoch date `INITDATE = date(1983, 6, 11)`. -/
def INITDATE : PDate := ⟨1983, 6, 11⟩

/-! ### Operations -/

/-- `Op = namedtuple('Op', 'initial dt account amount currency comment')`. -/
structure Op where
  initial : Bool
  dt : PDate
  account : Str
  amount : Rat
  currency : Option Str
  comment : Option Str
deriving DecidableEq

/-- `filter_ops`: keep ops with `(not start or dt >= start) and (not end or dt < end)`. -/
def filter_ops (ops : List Op) (start stop : Option PDate) : List Op :=
  ops.filter fun it =>
    (match start with
     | none => true
     | some s => dateLe s it.dt) &&
    (match stop with
     | none => true
     | some e => dateLt it.dt e)

theorem one_le_daysInMonth (y m : Int) : 1 ≤ daysInMonth y m := by
  unfold daysInMonth
  split
  · split <;> omega
  · split <;> omega

theorem valid_iff (y m dd : Int) :
    PDate.valid ⟨y, m, dd⟩ = true ↔
      (1 ≤ y ∧ y ≤ 9999 ∧ 1 ≤ m ∧ m ≤ 12 ∧ 1 ≤ dd ∧ dd ≤ daysInMonth y m) := by
  simp [PDate.valid]

theorem mkDate_eq_some (y m dd : Int)
    (h : 1 ≤ y ∧ y ≤ 9999 ∧ 1 ≤ m ∧ m ≤ 12 ∧ 1 ≤ dd ∧ dd ≤ daysInMonth y m) :
    mkDate y m dd = some ⟨y, m, dd⟩ := by
  unfold mkDate
  rw [if_pos ((valid_iff y m dd).2 h)]

/-- C9 (amended): for a valid date not in December 9999, `month_range` returns the
first day of the month paired with the first day of the following month, rolling
the year at December; whenever the same day number exists one month earlier (and
the target year stays at least 1), `prev_month` returns the same calendar day one
month earlier, rolling the year at January; and the two cited examples hold. -/
theorem month_range_prev_month_spec (d : PDate) (hv : d.valid = true) :
    ((d.month ≤ 11 ∨ d.year ≤ 9998) →
      month_range d = some (⟨d.year, d.month, 1⟩,
        if d.month = 12 then ⟨d.year + 1, 1, 1⟩ else ⟨d.year, d.month + 1, 1⟩))
  ∧ (∀ py pm : Int,
      py = (if d.month = 1 then d.year - 1 else d.year) →
      pm = (if d.month = 1 then 12 else d.month - 1) →
      1 ≤ py → d.day ≤ daysInMonth py pm →
      prev_month d = some ⟨py, pm, d.day⟩)
  ∧ month_range ⟨2019, 12, 10⟩ = some (⟨2019, 12, 1⟩, ⟨2020, 1, 1⟩)
  ∧ prev_month ⟨2019, 1, 10⟩ = some ⟨2018, 12, 10⟩ := by
  obtain ⟨d1, d2, d3⟩ := d
  rw [valid_iff] at hv
  obtain ⟨h1, h2, h3, h4, h5, h6⟩ := hv
  refine ⟨?_, ?_, ?_, ?_⟩
  · intro hbound
    dsimp only at hbound ⊢
    unfold month_range PDate.replaceDay
    rw [mkDate_eq_some d1 d2 1 ⟨h1, h2, h3, h4, le_refl 1, one_le_daysInMonth d1 d2⟩]
    unfold next_month PDate.replaceYM
    dsimp only
    by_cases hm : d2 = 12
    · subst hm
      have hy : d1 ≤ 9998 := by omega
      have hdiv : (12 : Int) / 12 = 1 := by decide
      have hmod : (12 : Int) % 12 = 0 := by decide
      rw [hdiv, hmod]
      rw [mkDate_eq_some (d1 + 1) (0 + 1) 1
        ⟨by omega, by omega, by omega, by omega, le_refl 1, one_le_daysInMonth _ _⟩]
      norm_num
    · have hm11 : d2 ≤ 11 := by omega
      have hdiv : d2 / 12 = 0 := by omega
      have hmod : d2 % 12 = d2 := by omega
      rw [hdiv, hmod]
      rw [mkDate_eq_some (d1 + 0) (d2 + 1) 1
        ⟨by omega, by omega, by omega, by omega, le_refl 1, one_le_daysInMonth _ _⟩]
      simp [hm]
  · intro py pm hpy hpm hge hday
    dsimp only at hpy hpm hge hday ⊢
    unfold prev_month PDate.replaceYM
    dsimp only
    by_cases hm : d2 = 1
    · subst hm
      rw [if_pos rfl] at hpy hpm
      have hdiv : (1 - 2 : Int) / 12 = -1 := by decide
      have hmod : (1 - 2 : Int) % 12 = 11 := by decide
      rw [hdiv, hmod]
      subst hpy hpm
      rw [mkDate_eq_some (d1 + -1) (11 + 1) d3
        ⟨by omega, by omega, by omega, by omega, h5, by
          have h31 : daysInMonth (d1 + -1) (11 + 1) = daysInMonth (d1 - 1) 12 := by
            have e1 : d1 + -1 = d1 - 1 := by ring
            have e2 : (11 : Int) + 1 = 12 := by norm_num
            rw [e1, e2]
          rw [h31]; exact hday⟩]
      have h12 : d1 + -1 = d1 - 1 := by ring
      rw [h12]
      norm_num
    · rw [if_neg hm] at hpy hpm
      have hdiv : (d2 - 2) / 12 = 0 := by omega
      have hmod : (d2 - 2) % 12 = d2 - 2 := by omega
      rw [hdiv, hmod]
      subst hpy hpm
      rw [mkDate_eq_some (py + 0) (d2 - 2 + 1)  d3
        ⟨by omega, by omega, by omega, by omega, h5, by
          have h21 : daysInMonth (py + 0) (d2 - 2 + 1) = daysInMonth py (d2 - 1) := by
            have e1 : py + 0 = py := by ring
            have e2 : d2 - 2 + 1 = d2 - 1 := by ring
            rw [e1, e2]
          rw [h21]; exact hday⟩]
      have e1 : py + 0 = py := by ring
      have e2 : d2 - 2 + 1 = d2 - 1 := by ring
      rw [e1, e2]
  · decide
  · decide

/-- C9 counterexample: `prev_month` raises `ValueError` on 2019-03-30 (day 30
does not exist in February 2019) instead of returning a date, and `month_range`
raises on 9999-12-10 (the following month overflows `datetime.MAXYEAR`), so the
claim does not hold for every date. -/
theorem month_range_prev_month_counterexample :
    (PDate.valid ⟨2019, 3, 30⟩ = true ∧ prev_month ⟨2019, 3, 30⟩ = none)
  ∧ (PDate.valid ⟨9999, 12, 10⟩ = true ∧ month_range ⟨9999, 12, 10⟩ = none) := by
  refine ⟨⟨by decide, by decide⟩, ⟨by decide, by decide⟩⟩

/-! ### Accounts and the ledger engine -/

structure Account where
  qname : Str
  title : Str
  parent : Option Str
  reverse : Rat
  balance : List (Str × Rat)
  accounts : List (Str × Str)
  level : Nat
deriving DecidableEq

/-- `Account.__init__`; the parent is passed as an optional object reference
and recorded here by its qualified name (object identity in the ledger map),
children are likewise recorded as a title-to-qualified-name mapping. -/
def Account.make (qname title : Str) (reverse : Option Rat) (parent : Option Account) : Account :=
  { qname := qname
    title := title
    parent := parent.map fun p => p.qname
    reverse := match reverse with
      | none => 1
      | some r => if r = 0 then 1 else r
    balance := []
    accounts := []
    level := match parent with
      | some p => p.level + 1
      | none => 0 }

/-- Balance read: the `pddict(float)` returns 0 for an absent currency. -/
def Account.bal (acc : Account) (currency : Str) : Rat :=
  (alookup acc.balance currency).getD 0

/-- `Account.add`: multiply by the sign unless initial, then accumulate. -/
def Account.add (acc : Account) (amount : Rat) (currency : Str) (initial : Bool) : Account :=
  let amt := if initial then amount else amount * acc.reverse
  { acc with balance := aset acc.balance currency (acc.bal currency + amt) }

structure Cash where
  accounts : List (Str × Account)
  currency : Str
  rates : List (Str × Rat)
deriving DecidableEq

/-- `Cash.__init__`: the four roots, base currency defaulting to `USD`. -/
def Cash.init (currency : Option Str) : Cash :=
  let a := Account.make "a".toList "assets".toList none none
  let e := Account.make "e".toList "expenses".toList none none
  let l := Account.make "l".toList "liabilities".toList (some (-1)) none
  let i := Account.make "i".toList "income".toList (some (-1)) none
  { accounts := [(a.qname, a), (e.qname, e), (l.qname, l), (i.qname, i)]
    currency := match currency with
      | none => "USD".toList
      | some c => if c = [] then "USD".toList else c
    rates := [] }

/-- `qname.rpartition(':')` restricted to the found case: the part before the
last colon and the part after it; `none` when there is no colon. -/
def splitLastColon : Str → Option (Str × Str)
  | [] => none
  | c :: cs =>
    match splitLastColon cs with
    | some (p, t) => some (c :: p, t)
    | none => if c = ':' then some ([], cs) else none

theorem splitLastColon_length (l : Str) (p t : Str) (h : splitLastColon l = some (p, t)) :
    p.length < l.length := by
  induction l generalizing p t with
  | nil => simp [splitLastColon] at h
  | cons c cs ih =>
    unfold splitLastColon at h
    cases hs : splitLastColon cs with
    | some pt =>
      obtain ⟨p1, t1⟩ := pt
      rw [hs] at h
      simp at h
      obtain ⟨hp, ht⟩ := h
      have := ih p1 t1 hs
      subst hp
      simp
      omega
    | none =>
      rw [hs] at h
      by_cases hc : c = ':'
      · simp [hc] at h
        obtain ⟨hp, ht⟩ := h
        subst hp
        simp
      · simp [hc] at h

/-- `Cash.get_account`: look up a qualified name, creating the account and any
missing ancestors on demand; `none` models the propagated `KeyError`. -/
def Cash.get_account (cash : Cash) (qname : Str) : Option (Cash × Account) :=
  match alookup cash.accounts qname with
  | some acc => some (cash, acc)
  | none =>
    match h : splitLastColon qname with
    | none => none
    | some (pqname, title) =>
      if pqname = [] then none
      else
        match Cash.get_account cash pqname with
        | none => none
        | some (cash1, parent) =>
          let account := Account.make qname title (some parent.reverse) (some parent)
          let cash2 : Cash := { cash1 with accounts := aset cash1.accounts qname account }
          let parent2 : Account := { parent with accounts := aset parent.accounts title qname }
          let cash3 : Cash := { cash2 with accounts := aset cash2.accounts pqname parent2 }
          some (cash3, account)
termination_by qname.length
decreasing_by
  exact splitLastColon_length qname pqname title h

/-- `Cash.convert_amount`: identity on equal currencies, otherwise a single
direct lookup keyed by the concatenated pair; `none` models the `KeyError`. -/
def Cash.convert_amount (cash : Cash) (from_currency to_currency : Str) (amount : Rat) :
    Option Rat :=
  if from_currency = to_currency then some amount
  else
    match alookup cash.rates (from_currency ++ to_currency) with
    | none => none
    | some r => some (amount * r)

/-- `currency or self.currency`: `None` and the empty string are falsy. -/
def effCurrency (currency : Option Str) (base : Str) : Str :=
  match currency with
  | none => base
  | some c => if c = [] then base else c

/-- The `while account:` walk of `process_account`, stepping through parent
links; the fuel covers any chain whose parent names strictly shrink. -/
def Cash.walkAdd : Nat → Cash → Option Str → Rat → Str → Bool → Option Cash
  | _, cash, none, _, _, _ => some cash
  | 0, _, some _, _, _, _ => none
  | fuel + 1, cash, some q, amount, currency, initial =>
    match alookup cash.accounts q with
    | none => none
    | some acc =>
      Cash.walkAdd fuel
        { cash with accounts := aset cash.accounts q (acc.add amount currency initial) }
        acc.parent amount currency initial

/-- `Cash.process_account`: resolve the account, then accumulate on it and on
every ancestor up to the root. -/
def Cash.process_account (cash : Cash) (name : Str) (amount : Rat)
    (currency : Option Str) (initial : Bool) : Option Cash :=
  let cur := effCurrency currency cash.currency
  match cash.get_account name with
  | none => none
  | some (cash1, account) =>
    Cash.walkAdd (account.qname.length + 1) cash1 (some account.qname) amount cur initial

/-- `Cash.apply_operations`: process each operation in sequence. -/
def Cash.apply_operations (cash : Cash) (ops : List Op) : Option Cash :=
  match ops with
  | [] => some cash
  | op :: rest =>
    match cash.process_account op.account op.amount op.currency op.initial with
    | none => none
    | some cash1 => cash1.apply_operations rest

/-- The first colon-segment of a qualified name. -/
def firstSeg : Str → Str
  | [] => []
  | c :: cs => if c = ':' then [] else c :: firstSeg cs

/-- The four root names `a`, `e`, `l`, `i`. -/
def rootNames : List Str := ["a".toList, "e".toList, "l".toList, "i".toList]

/-- Sign multiplier determined by the root of a path. -/
def signOf (q : Str) : Rat :=
  if firstSeg q = "a".toList ∨ firstSeg q = "e".toList then 1 else -1

/-- The requested account and all its ancestors up to its root. -/
def ancestorChain : Str → List Str
  | q =>
    q :: (match h : splitLastColon q with
      | none => []
      | some (pq, t) => if pq = [] then [] else ancestorChain pq)
termination_by q => q.length
decreasing_by
  exact splitLastColon_length q pq t h

/-- The per-entry well-formedness clause: the entry records its own key as its
qualified name, its sign multiplier follows the root of its path, a rootless
entry has no parent, and a child entry carries its parent link as the text
before the last colon and is registered in that parent node under its title. -/
def entryOk (accounts : List (Str × Account)) (e : Str × Account) : Bool :=
  decide (firstSeg e.1 ∈ rootNames) &&
  decide (e.2.qname = e.1) &&
  decide (e.2.reverse = signOf e.1) &&
  (match splitLastColon e.1 with
   | none => decide (e.2.parent = none)
   | some (pq, t) =>
     decide (e.2.parent = some pq) &&
     (match alookup accounts pq with
      | none => false
      | some pacc => decide (alookup pacc.accounts t = some e.1)))

/-- Well-formedness of a ledger state: the four roots are present and every
registered entry satisfies `entryOk`. -/
def Cash.inv (cash : Cash) : Bool :=
  (rootNames.all fun r => (alookup cash.accounts r).isSome) &&
  (cash.accounts.all (entryOk cash.accounts))

/-! ### Structural lemmas about paths and the account map -/

theorem mem_of_alookup {α : Type} (l : List (Str × α)) (q : Str) (v : α)
    (h : alookup l q = some v) : (q, v) ∈ l := by
  induction l with
  | nil => simp [alookup] at h
  | cons e rest ih =>
    obtain ⟨k, w⟩ := e
    by_cases hk : k = q
    · subst hk
      simp [alookup] at h
      subst h
      exact List.mem_cons_self _ _
    · simp [alookup, hk] at h
      exact List.mem_cons_of_mem _ (ih h)

theorem alookup_none_of_not_mem {α : Type} (l : List (Str × α)) (q : Str)
    (h : ∀ v, (q, v) ∉ l) : alookup l q = none := by
  induction l with
  | nil => simp [alookup]
  | cons e rest ih =>
    obtain ⟨k, w⟩ := e
    by_cases hk : k = q
    · subst hk
      exact absurd (List.mem_cons_self _ _) (h w)
    · simp only [alookup, hk, if_false]
      exact ih fun v hv => h v (List.mem_cons_of_mem _ hv)

theorem mem_aset {α : Type} (l : List (Str × α)) (q : Str) (v : α) (e : Str × α)
    (h : e ∈ aset l q v) : e = (q, v) ∨ e ∈ l := by
  induction l with
  | nil =>
    simp [aset] at h
    exact Or.inl h
  | cons f rest ih =>
    obtain ⟨k, w⟩ := f
    by_cases hk : k = q
    · subst hk
      simp only [aset, if_pos rfl] at h
      rcases List.mem_cons.1 h with h1 | h1
      · exact Or.inl h1
      · exact Or.inr (List.mem_cons_of_mem _ h1)
    · simp only [aset, if_neg hk] at h
      rcases List.mem_cons.1 h with h1 | h1
      · subst h1
        exact Or.inr (List.mem_cons_self _ _)
      · rcases ih h1 with h2 | h2
        · exact Or.inl h2
        · exact Or.inr (List.mem_cons_of_mem _ h2)

theorem alookup_aset_isSome {α : Type} (l : List (Str × α)) (q p : Str) (v : α)
    (h : (alookup l p).isSome = true) : (alookup (aset l q v) p).isSome = true := by
  by_cases hp : p = q
  · subst hp
    rw [alookup_aset]
    rfl
  · rw [alookup_aset_ne l q p v hp]
    exact h

/-- `rpartition` decomposition: the pieces reassemble around the last colon. -/
theorem splitLastColon_decomp (l : Str) (p t : Str) (h : splitLastColon l = some (p, t)) :
    l = p ++ ':' :: t := by
  induction l generalizing p t with
  | nil => simp [splitLastColon] at h
  | cons c cs ih =>
    unfold splitLastColon at h
    cases hs : splitLastColon cs with
    | some pt =>
      obtain ⟨p1, t1⟩ := pt
      rw [hs] at h
      simp at h
      obtain ⟨hp, ht⟩ := h
      subst hp ht
      simp [ih p1 t1 hs]
    | none =>
      rw [hs] at h
      by_cases hc : c = ':'
      · simp [hc] at h
        obtain ⟨hp, ht⟩ := h
        subst hp ht
        simp [hc]
      · simp [hc] at h

theorem splitLastColon_none_no_colon (l : Str) (h : splitLastColon l = none) :
    firstSeg l = l := by
  induction l with
  | nil => simp [firstSeg]
  | cons c cs ih =>
    unfold splitLastColon at h
    cases hs : splitLastColon cs with
    | some pt => rw [hs] at h; cases h
    | none =>
      rw [hs] at h
      by_cases hc : c = ':'
      · simp [hc] at h
      · simp [firstSeg, hc, ih hs]

/-- The first segment of the prefix before the last colon is the first segment
of the whole path, provided that prefix is nonempty. -/
theorem firstSeg_of_parent (l p t : Str) (h : splitLastColon l = some (p, t)) (hp : p ≠ []) :
    firstSeg p = firstSeg l := by
  induction l generalizing p t with
  | nil => simp [splitLastColon] at h
  | cons c cs ih =>
    unfold splitLastColon at h
    cases hs : splitLastColon cs with
    | some pt =>
      obtain ⟨p1, t1⟩ := pt
      rw [hs] at h
      simp at h
      obtain ⟨hp1, ht1⟩ := h
      subst hp1 ht1
      by_cases hc : c = ':'
      · simp [firstSeg, hc]
      · simp only [firstSeg, hc, if_false]
        by_cases hp1 : p1 = []
        · subst hp1
          have := splitLastColon_decomp cs [] t1 hs
          simp at this
          subst this
          simp [firstSeg]
        · simp [ih p1 t1 hs hp1]
    | none =>
      rw [hs] at h
      by_cases hc : c = ':'
      · simp [hc] at h
        obtain ⟨hp1, ht1⟩ := h
        exact absurd hp1 hp
      · simp [hc] at h

theorem firstSeg_nonempty_of_root (q : Str) (h : firstSeg q ∈ rootNames) : q ≠ [] := by
  intro hq
  subst hq
  simp [firstSeg, rootNames] at h

/-- A root name has no colon, so its `rpartition` prefix part is empty. -/
theorem splitLastColon_root (r : Str) (h : r ∈ rootNames) : splitLastColon r = none := by
  simp only [rootNames, List.mem_cons, List.not_mem_nil, or_false] at h
  rcases h with h | h | h | h <;> (subst h; decide)

theorem entryOk_iff (accounts : List (Str × Account)) (q : Str) (acc : Account) :
    entryOk accounts (q, acc) = true ↔
      (firstSeg q ∈ rootNames ∧ acc.qname = q ∧ acc.reverse = signOf q ∧
       (match splitLastColon q with
        | none => acc.parent = none
        | some (pq, t) => acc.parent = some pq ∧
            ∃ pacc, alookup accounts pq = some pacc ∧ alookup pacc.accounts t = some q)) := by
  unfold entryOk
  simp only [Bool.and_eq_true, decide_eq_true_eq]
  constructor
  · rintro ⟨⟨⟨h1, h2⟩, h3⟩, h4⟩
    refine ⟨h1, h2, h3, ?_⟩
    cases hs : splitLastColon q with
    | none =>
      rw [hs] at h4
      simpa using h4
    | some pt =>
      obtain ⟨pq, t⟩ := pt
      rw [hs] at h4
      rw [Bool.and_eq_true] at h4
      obtain ⟨h5, h6⟩ := h4
      refine ⟨by simpa using h5, ?_⟩
      cases hp : alookup accounts pq with
      | none => rw [hp] at h6; cases h6
      | some pacc =>
        rw [hp] at h6
        exact ⟨pacc, rfl, by simpa using h6⟩
  · rintro ⟨h1, h2, h3, h4⟩
    refine ⟨⟨⟨h1, h2⟩, h3⟩, ?_⟩
    cases hs : splitLastColon q with
    | none =>
      rw [hs] at h4
      simpa using h4
    | some pt =>
      obtain ⟨pq, t⟩ := pt
      rw [hs] at h4
      obtain ⟨h5, pacc, h6, h7⟩ := h4
      rw [Bool.and_eq_true]
      exact ⟨by simpa using h5, by rw [h6]; simpa using h7⟩

theorem inv_iff (cash : Cash) :
    cash.inv = true ↔
      ((∀ r, r ∈ rootNames → (alookup cash.accounts r).isSome = true) ∧
       (∀ e, e ∈ cash.accounts → entryOk cash.accounts e = true)) := by
  unfold Cash.inv
  rw [Bool.and_eq_true, List.all_eq_true, List.all_eq_true]

theorem inv_lookup (cash : Cash) (hinv : cash.inv = true) (q : Str) (acc : Account)
    (h : alookup cash.accounts q = some acc) :
    firstSeg q ∈ rootNames ∧ acc.qname = q ∧ acc.reverse = signOf q ∧
    (match splitLastColon q with
     | none => acc.parent = none
     | some (pq, t) => acc.parent = some pq ∧
         ∃ pacc, alookup cash.accounts pq = some pacc ∧ alookup pacc.accounts t = some q) := by
  have hall := (inv_iff cash).1 hinv
  exact (entryOk_iff cash.accounts q acc).1 (hall.2 _ (mem_of_alookup _ _ _ h))

theorem inv_roots (cash : Cash) (hinv : cash.inv = true) (r : Str) (hr : r ∈ rootNames) :
    (alookup cash.accounts r).isSome = true :=
  ((inv_iff cash).1 hinv).1 r hr

theorem inv_init (c : Option Str) : (Cash.init c).inv = true := by
  have h : (Cash.init c).accounts = (Cash.init none).accounts := rfl
  unfold Cash.inv
  rw [h]
  decide

theorem alookup_isSome_of_mem_key {α : Type} (l : List (Str × α)) (q : Str) (v : α)
    (h : (q, v) ∈ l) : (alookup l q).isSome = true := by
  induction l with
  | nil => simp at h
  | cons e rest ih =>
    obtain ⟨k, w⟩ := e
    rcases List.mem_cons.1 h with h1 | h1
    · injection h1 with hk hv
      rw [← hk]
      simp [alookup]
    · by_cases hk : k = q
      · simp [alookup, hk]
      · simp only [alookup, hk, if_false]
        exact ih h1

theorem ancestorChain_no_colon (q : Str) (h : splitLastColon q = none) :
    ancestorChain q = [q] := by
  rw [ancestorChain]
  rw [h]

theorem ancestorChain_empty_parent (q t : Str) (h : splitLastColon q = some ([], t)) :
    ancestorChain q = [q] := by
  rw [ancestorChain]
  rw [h]
  simp

theorem ancestorChain_cons (q pq t : Str) (h : splitLastColon q = some (pq, t))
    (hpq : pq ≠ []) : ancestorChain q = q :: ancestorChain pq := by
  rw [ancestorChain]
  rw [h]
  simp [hpq]

theorem self_mem_ancestorChain (q : Str) : q ∈ ancestorChain q := by
  rw [ancestorChain]
  exact List.mem_cons_self _ _

theorem ancestorChain_length_aux :
    ∀ (n : Nat) (q : Str), q.length ≤ n → ∀ p, p ∈ ancestorChain q → p.length ≤ q.length := by
  intro n
  induction n with
  | zero =>
    intro q hq p hp
    have hq0 : q = [] := List.length_eq_zero.1 (Nat.le_zero.1 hq)
    subst hq0
    rw [ancestorChain_no_colon [] rfl] at hp
    simp at hp
    subst hp
    exact le_refl _
  | succ n ih =>
    intro q hq p hp
    cases hs : splitLastColon q with
    | none =>
      rw [ancestorChain_no_colon q hs] at hp
      simp at hp
      subst hp
      exact le_refl _
    | some pt =>
      obtain ⟨pq, t⟩ := pt
      by_cases hpq : pq = []
      · subst hpq
        rw [ancestorChain_empty_parent q t hs] at hp
        simp at hp
        subst hp
        exact le_refl _
      · rw [ancestorChain_cons q pq t hs hpq] at hp
        rcases List.mem_cons.1 hp with h1 | h1
        · subst h1; exact le_refl _
        · have hlen := splitLastColon_length q pq t hs
          have := ih pq (by omega) p h1
          omega

theorem ancestorChain_length (q p : Str) (hp : p ∈ ancestorChain q) :
    p.length ≤ q.length :=
  ancestorChain_length_aux q.length q (le_refl _) p hp

theorem signOf_ne_zero (q : Str) : signOf q ≠ 0 := by
  unfold signOf
  split <;> norm_num

theorem signOf_eq_of_firstSeg (p q : Str) (h : firstSeg p = firstSeg q) :
    signOf p = signOf q := by
  unfold signOf
  rw [h]

/-- `get_account` fails whenever the first colon-segment is not a root name. -/
theorem get_account_none_aux :
    ∀ (n : Nat) (q : Str), q.length ≤ n → ∀ (cash : Cash), cash.inv = true →
    firstSeg q ∉ rootNames → cash.get_account q = none := by
  intro n
  induction n with
  | zero =>
    intro q hq cash hinv hroot
    have hq0 : q = [] := List.length_eq_zero.1 (Nat.le_zero.1 hq)
    subst hq0
    have hl : alookup cash.accounts [] = none := by
      cases hl : alookup cash.accounts [] with
      | none => rfl
      | some acc => exact absurd (inv_lookup cash hinv [] acc hl).1 hroot
    unfold Cash.get_account
    rw [hl]
    rfl
  | succ n ih =>
    intro q hq cash hinv hroot
    have hl : alookup cash.accounts q = none := by
      cases hl : alookup cash.accounts q with
      | none => rfl
      | some acc => exact absurd (inv_lookup cash hinv q acc hl).1 hroot
    unfold Cash.get_account
    rw [hl]
    simp only []
    cases hs : splitLastColon q with
    | none => rfl
    | some pt =>
      obtain ⟨pq, t⟩ := pt
      simp only []
      by_cases hpq : pq = []
      · rw [if_pos hpq]
      · rw [if_neg hpq]
        have hrec : cash.get_account pq = none := by
          apply ih pq ?_ cash hinv ?_
          · have := splitLastColon_length q pq t hs
            omega
          · rw [firstSeg_of_parent q pq t hs hpq]
            exact hroot
        rw [hrec]

/-- `get_account` succeeds whenever the first colon-segment is a root name. -/
theorem get_account_some_aux :
    ∀ (n : Nat) (q : Str), q.length ≤ n → ∀ (cash : Cash), cash.inv = true →
    firstSeg q ∈ rootNames → (cash.get_account q).isSome = true := by
  intro n
  induction n with
  | zero =>
    intro q hq cash hinv hroot
    have hq0 : q = [] := List.length_eq_zero.1 (Nat.le_zero.1 hq)
    subst hq0
    exact absurd hroot (by decide)
  | succ n ih =>
    intro q hq cash hinv hroot
    unfold Cash.get_account
    cases hl : alookup cash.accounts q with
    | some acc => rfl
    | none =>
      simp only []
      cases hs : splitLastColon q with
      | none =>
        have hq_root : q ∈ rootNames := by
          rw [← splitLastColon_none_no_colon q hs]
          exact hroot
        have := inv_roots cash hinv q hq_root
        rw [hl] at this
        cases this
      | some pt =>
        obtain ⟨pq, t⟩ := pt
        simp only []
        by_cases hpq : pq = []
        · subst hpq
          have hdec := splitLastColon_decomp q [] t hs
          simp at hdec
          subst hdec
          exact absurd hroot (by simp [firstSeg, rootNames])
        · rw [if_neg hpq]
          have hrec : (cash.get_account pq).isSome = true := by
            apply ih pq ?_ cash hinv ?_
            · have := splitLastColon_length q pq t hs
              omega
            · rw [firstSeg_of_parent q pq t hs hpq]
              exact hroot
          cases hg : cash.get_account pq with
          | none => rw [hg] at hrec; cases hrec
          | some r =>
            obtain ⟨cash1, parent⟩ := r
            rfl

/-- Under the invariant, if an account is registered then so is every ancestor
on its chain. -/
theorem chain_present_aux :
    ∀ (n : Nat) (q : Str), q.length ≤ n → ∀ (cash : Cash), cash.inv = true →
    (alookup cash.accounts q).isSome = true →
    ∀ p, p ∈ ancestorChain q → (alookup cash.accounts p).isSome = true := by
  intro n
  induction n with
  | zero =>
    intro q hq cash hinv hq1 p hp
    have hq0 : q = [] := List.length_eq_zero.1 (Nat.le_zero.1 hq)
    subst hq0
    rw [ancestorChain_no_colon [] rfl] at hp
    simp at hp
    subst hp
    exact hq1
  | succ n ih =>
    intro q hq cash hinv hq1 p hp
    cases hs : splitLastColon q with
    | none =>
      rw [ancestorChain_no_colon q hs] at hp
      simp at hp
      subst hp
      exact hq1
    | some pt =>
      obtain ⟨pq, t⟩ := pt
      by_cases hpq : pq = []
      · subst hpq
        rw [ancestorChain_empty_parent q t hs] at hp
        simp at hp
        subst hp
        exact hq1
      · rw [ancestorChain_cons q pq t hs hpq] at hp
        rcases List.mem_cons.1 hp with h1 | h1
        · subst h1
          exact hq1
        · cases hacc : alookup cash.accounts q with
          | none => rw [hacc] at hq1; cases hq1
          | some acc =>
            have hprops := inv_lookup cash hinv q acc hacc
            rw [hs] at hprops
            obtain ⟨hroot, hqn, hrev, hlink, pacc, hpacc, hreg⟩ := hprops
            have hlen := splitLastColon_length q pq t hs
            apply ih pq (by omega) cash hinv
            · rw [hpacc]; rfl
            · exact h1

/-- Everything `get_account` guarantees on success: the returned ledger still
satisfies the invariant, the returned account is registered under the requested
name, currency and rate table are untouched, accounts off the ancestor chain
are untouched, previously existing accounts keep every field except their
child mapping, and the whole ancestor chain is present afterwards. -/
def GetSpec (cash : Cash) (q : Str) (c2 : Cash) (acc : Account) : Prop :=
  c2.inv = true ∧
  acc.qname = q ∧
  alookup c2.accounts q = some acc ∧
  c2.currency = cash.currency ∧
  c2.rates = cash.rates ∧
  (∀ p, p ∉ ancestorChain q → alookup c2.accounts p = alookup cash.accounts p) ∧
  (∀ p a1, alookup cash.accounts p = some a1 →
    ∃ a2, alookup c2.accounts p = some a2 ∧ a2.balance = a1.balance ∧
      a2.reverse = a1.reverse ∧ a2.qname = a1.qname ∧ a2.parent = a1.parent ∧
      a2.level = a1.level ∧ a2.title = a1.title) ∧
  (∀ p, p ∈ ancestorChain q → (alookup c2.accounts p).isSome = true) ∧
  (∀ p a2, alookup cash.accounts p = none → alookup c2.accounts p = some a2 →
    a2.balance = [])

/-- The effect of one creation step of `get_account`, assuming the recursive
call for the parent prefix already satisfies `GetSpec`. -/
theorem get_account_create_step
    (cash cash1 : Cash) (q pq t : Str) (parent : Account)
    (hs : splitLastColon q = some (pq, t)) (hpq : pq ≠ [])
    (hl : alookup cash.accounts q = none)
    (hspec : GetSpec cash pq cash1 parent) :
    GetSpec cash q
      ⟨aset (aset cash1.accounts q (Account.make q t (some parent.reverse) (some parent)))
          pq ({ parent with accounts := aset parent.accounts t q }),
        cash1.currency, cash1.rates⟩
      (Account.make q t (some parent.reverse) (some parent)) := by
  obtain ⟨I1, I2, I3, I4c, I4r, I5, I6, I7, I9⟩ := hspec
  set A := Account.make q t (some parent.reverse) (some parent) with hA
  set P2 : Account := { parent with accounts := aset parent.accounts t q } with hP2
  set C2 := aset cash1.accounts q A with hC2
  set C3 := aset C2 pq P2 with hC3
  have hlen := splitLastColon_length q pq t hs
  have hqpq : q ≠ pq := by
    intro he
    rw [he] at hlen
    omega
  have hq_chain_pq : q ∉ ancestorChain pq := by
    intro hmem
    have := ancestorChain_length pq q hmem
    omega
  have hq1 : alookup cash1.accounts q = none := by
    rw [I5 q hq_chain_pq]
    exact hl
  have hfs : firstSeg pq = firstSeg q := firstSeg_of_parent q pq t hs hpq
  have hparprops := inv_lookup cash1 I1 pq parent I3
  obtain ⟨hpqroot, hpqname, hpqrev, hpqparent⟩ := hparprops
  have hrevA : A.reverse = parent.reverse := by
    rw [hA]
    show (if parent.reverse = 0 then (1 : Rat) else parent.reverse) = parent.reverse
    rw [if_neg]
    rw [hpqrev]
    exact signOf_ne_zero pq
  have hparentA : A.parent = some pq := by
    rw [hA]
    show some parent.qname = some pq
    rw [hpqname]
  have l3q : alookup C3 q = some A := by
    rw [hC3, alookup_aset_ne C2 pq q P2 hqpq, hC2, alookup_aset]
  have l3pq : alookup C3 pq = some P2 := by
    rw [hC3, alookup_aset]
  have l3other : ∀ p, p ≠ q → p ≠ pq → alookup C3 p = alookup cash1.accounts p := by
    intro p hp1 hp2
    rw [hC3, alookup_aset_ne C2 pq p P2 hp2, hC2, alookup_aset_ne _ q p A hp1]
  have hchain : ancestorChain q = q :: ancestorChain pq := ancestorChain_cons q pq t hs hpq
  have hdecomp := splitLastColon_decomp q pq t hs
  refine ⟨?_, rfl, l3q, I4c, I4r, ?_, ?_, ?_, ?_⟩
  · -- the invariant is preserved
    apply (inv_iff _).2
    constructor
    · intro r hr
      show (alookup C3 r).isSome = true
      rw [hC3, hC2]
      exact alookup_aset_isSome _ pq _ P2 (alookup_aset_isSome _ q _ A (inv_roots cash1 I1 r hr))
    · intro e he
      obtain ⟨k, a⟩ := e
      have he2 : (k, a) = (pq, P2) ∨ (k, a) = (q, A) ∨ (k, a) ∈ cash1.accounts := by
        rcases mem_aset C2 pq P2 (k, a) he with h1 | h1
        · exact Or.inl h1
        · rcases mem_aset cash1.accounts q A (k, a) (hC2 ▸ h1) with h2 | h2
          · exact Or.inr (Or.inl h2)
          · exact Or.inr (Or.inr h2)
      show entryOk C3 (k, a) = true
      rcases he2 with h1 | h1 | h1
      · -- the parent entry, with the freshly registered child
        rw [h1]
        apply (entryOk_iff C3 pq P2).2
        refine ⟨hpqroot, hpqname, hpqrev, ?_⟩
        cases hsp : splitLastColon pq with
        | none =>
          rw [hsp] at hpqparent
          exact hpqparent
        | some gpt =>
          obtain ⟨gq, gt⟩ := gpt
          rw [hsp] at hpqparent
          obtain ⟨hglink, gacc, hg1, hg2⟩ := hpqparent
          refine ⟨hglink, gacc, ?_, hg2⟩
          have hgq_ne_q : gq ≠ q := by
            intro he
            rw [he, hq1] at hg1
            cases hg1
          have hgq_ne_pq : gq ≠ pq := by
            have := splitLastColon_length pq gq gt hsp
            intro he
            rw [he] at this
            omega
          rw [l3other gq hgq_ne_q hgq_ne_pq]
          exact hg1
      · -- the freshly created entry
        rw [h1]
        apply (entryOk_iff C3 q A).2
        refine ⟨hfs ▸ hpqroot, rfl, ?_, ?_⟩
        · rw [hrevA, hpqrev]
          exact signOf_eq_of_firstSeg pq q hfs
        · rw [hs]
          refine ⟨hparentA, P2, l3pq, ?_⟩
          show alookup (aset parent.accounts t q) t = some q
          exact alookup_aset _ _ _
      · -- an untouched pre-existing entry
        have hE := (entryOk_iff cash1.accounts k a).1 (((inv_iff cash1).1 I1).2 (k, a) h1)
        obtain ⟨e1, e2, e3, e4⟩ := hE
        apply (entryOk_iff C3 k a).2
        refine ⟨e1, e2, e3, ?_⟩
        cases hsk : splitLastColon k with
        | none =>
          rw [hsk] at e4
          exact e4
        | some kpt =>
          obtain ⟨kp, kt⟩ := kpt
          rw [hsk] at e4
          obtain ⟨elink, pacc1, ek1, ek2⟩ := e4
          refine ⟨elink, ?_⟩
          have hkp_ne_q : kp ≠ q := by
            intro he
            rw [he, hq1] at ek1
            cases ek1
          by_cases hkp : kp = pq
          · subst hkp
            have hpacc1 : pacc1 = parent := by
              rw [I3] at ek1
              exact (Option.some_inj.1 ek1).symm
            refine ⟨P2, l3pq, ?_⟩
            have hkt : kt ≠ t := by
              intro he
              have hdk := splitLastColon_decomp k kp kt hsk
              rw [he] at hdk
              rw [← hdecomp] at hdk
              have hksome := alookup_isSome_of_mem_key cash1.accounts k a h1
              rw [hdk, hq1] at hksome
              cases hksome
            show alookup (aset parent.accounts t q) kt = some k
            rw [alookup_aset_ne parent.accounts t kt q hkt]
            rw [hpacc1] at ek2
            exact ek2
          · refine ⟨pacc1, ?_, ek2⟩
            rw [l3other kp hkp_ne_q hkp]
            exact ek1
  · -- frame: accounts off the chain are untouched
    intro p hp
    rw [hchain] at hp
    simp only [List.mem_cons, not_or] at hp
    obtain ⟨hp1, hp2⟩ := hp
    have hppq : p ≠ pq := fun he => hp2 (he ▸ self_mem_ancestorChain pq)
    show alookup C3 p = alookup cash.accounts p
    rw [l3other p hp1 hppq]
    exact I5 p hp2
  · -- pre-existing accounts keep every field except the child map
    intro p a1 hp1
    obtain ⟨a2, hA2, hb, hr, hq2, hpar, hlev, htit⟩ := I6 p a1 hp1
    by_cases hpz : p = q
    · rw [hpz, hl] at hp1
      cases hp1
    · by_cases hppq : p = pq
      · subst hppq
        have ha2 : a2 = parent := by
          rw [I3] at hA2
          exact (Option.some_inj.1 hA2).symm
        subst ha2
        exact ⟨P2, l3pq, hb, hr, hq2, hpar, hlev, htit⟩
      · refine ⟨a2, ?_, hb, hr, hq2, hpar, hlev, htit⟩
        rw [l3other p hpz hppq]
        exact hA2
  · -- the whole ancestor chain is present afterwards
    intro p hp
    rw [hchain] at hp
    rcases List.mem_cons.1 hp with h1 | h1
    · subst h1
      rw [l3q]
      rfl
    · have hi := I7 p h1
      show (alookup C3 p).isSome = true
      rw [hC3, hC2]
      exact alookup_aset_isSome _ pq _ P2 (alookup_aset_isSome _ q _ A hi)
  · -- freshly created accounts start with an empty balance
    intro p a2 hpnone hp2
    by_cases hpz : p = q
    · subst hpz
      rw [l3q] at hp2
      rw [← Option.some_inj.1 hp2]
      rfl
    · by_cases hppq : p = pq
      · subst hppq
        rw [l3pq] at hp2
        rw [← Option.some_inj.1 hp2]
        show parent.balance = []
        exact I9 p parent hpnone I3
      · rw [l3other p hpz hppq] at hp2
        exact I9 p a2 hpnone hp2

theorem get_account_spec_aux :
    ∀ (n : Nat) (q : Str), q.length ≤ n → ∀ (cash : Cash), cash.inv = true →
    ∀ c2 acc, cash.get_account q = some (c2, acc) → GetSpec cash q c2 acc := by
  intro n
  induction n with
  | zero =>
    intro q hq cash hinv c2 acc hg
    have hq0 : q = [] := List.length_eq_zero.1 (Nat.le_zero.1 hq)
    subst hq0
    have hnone := get_account_none_aux 0 [] (le_refl _) cash hinv (by decide)
    rw [hnone] at hg
    cases hg
  | succ n ih =>
    intro q hq cash hinv c2 acc hg
    cases hl : alookup cash.accounts q with
    | some acc0 =>
      have hval : cash.get_account q = some (cash, acc0) := by
        unfold Cash.get_account
        rw [hl]
      rw [hval] at hg
      have hpair := Option.some_inj.1 hg
      injection hpair with h1 h2
      subst h1 h2
      refine ⟨hinv, (inv_lookup cash hinv q acc0 hl).2.1, hl, rfl, rfl,
        fun p _ => rfl, fun p a1 h => ⟨a1, h, rfl, rfl, rfl, rfl, rfl, rfl⟩, ?_, ?_⟩
      · intro p hp
        exact chain_present_aux q.length q (le_refl _) cash hinv (by rw [hl]; rfl) p hp
      · intro p a2 hn h2
        rw [hn] at h2
        cases h2
    | none =>
      cases hs : splitLastColon q with
      | none =>
        have hval : cash.get_account q = none := by
          unfold Cash.get_account
          rw [hl]
          simp only []
          rw [hs]
        rw [hval] at hg
        cases hg
      | some pt =>
        obtain ⟨pq, t⟩ := pt
        by_cases hpq : pq = []
        · have hval : cash.get_account q = none := by
            unfold Cash.get_account
            rw [hl]
            simp only []
            rw [hs]
            simp only []
            rw [if_pos hpq]
          rw [hval] at hg
          cases hg
        · cases hrec : cash.get_account pq with
          | none =>
            have hval : cash.get_account q = none := by
              unfold Cash.get_account
              rw [hl]
              simp only []
              rw [hs]
              simp only []
              rw [if_neg hpq, hrec]
            rw [hval] at hg
            cases hg
          | some r =>
            obtain ⟨cash1, parent⟩ := r
            have hval : cash.get_account q = some
                (⟨aset (aset cash1.accounts q
                      (Account.make q t (some parent.reverse) (some parent)))
                    pq ({ parent with accounts := aset parent.accounts t q }),
                  cash1.currency, cash1.rates⟩,
                 Account.make q t (some parent.reverse) (some parent)) := by
              unfold Cash.get_account
              rw [hl]
              simp only []
              rw [hs]
              simp only []
              rw [if_neg hpq, hrec]
            rw [hval] at hg
            have hpair := Option.some_inj.1 hg
            injection hpair with h1 h2
            subst h1 h2
            have hlen := splitLastColon_length q pq t hs
            exact get_account_create_step cash cash1 q pq t parent hs hpq hl
              (ih pq (by omega) cash hinv cash1 parent hrec)

theorem get_account_spec (cash : Cash) (hinv : cash.inv = true) (q : Str) (c2 : Cash)
    (acc : Account) (hg : cash.get_account q = some (c2, acc)) : GetSpec cash q c2 acc :=
  get_account_spec_aux q.length q (le_refl _) cash hinv c2 acc hg

/-- Replacing a registered account by one differing only in its balance
preserves the ledger invariant (for any currency and rate table). -/
theorem inv_set_like (cash : Cash) (hinv : cash.inv = true) (q : Str) (acc : Account)
    (hl : alookup cash.accounts q = some acc) (acc2 : Account)
    (hf1 : acc2.qname = acc.qname) (hf2 : acc2.reverse = acc.reverse)
    (hf3 : acc2.parent = acc.parent) (hf4 : acc2.accounts = acc.accounts)
    (cu : Str) (ra : List (Str × Rat)) :
    (Cash.mk (aset cash.accounts q acc2) cu ra).inv = true := by
  have hprops := inv_lookup cash hinv q acc hl
  obtain ⟨hroot, hqname, hrev, hparent⟩ := hprops
  apply (inv_iff _).2
  constructor
  · intro r hr
    exact alookup_aset_isSome _ q _ acc2 (inv_roots cash hinv r hr)
  · intro e he
    obtain ⟨k, a⟩ := e
    show entryOk (aset cash.accounts q acc2) (k, a) = true
    rcases mem_aset cash.accounts q acc2 (k, a) he with h1 | h1
    · -- the updated entry
      rw [h1]
      apply (entryOk_iff _ q acc2).2
      refine ⟨hroot, hf1.trans hqname, hf2.trans hrev, ?_⟩
      cases hsp : splitLastColon q with
      | none =>
        rw [hsp] at hparent
        exact hf3.trans hparent
      | some pt =>
        obtain ⟨pq, t⟩ := pt
        rw [hsp] at hparent
        obtain ⟨hlink, pacc, hp1, hp2⟩ := hparent
        have hpq_ne : pq ≠ q := by
          have := splitLastColon_length q pq t hsp
          intro he2
          rw [he2] at this
          omega
        refine ⟨hf3.trans hlink, pacc, ?_, hp2⟩
        rw [alookup_aset_ne _ q pq acc2 hpq_ne]
        exact hp1
    · -- a pre-existing entry
      have hE := (entryOk_iff cash.accounts k a).1 (((inv_iff cash).1 hinv).2 (k, a) h1)
      obtain ⟨e1, e2, e3, e4⟩ := hE
      apply (entryOk_iff _ k a).2
      refine ⟨e1, e2, e3, ?_⟩
      cases hsk : splitLastColon k with
      | none =>
        rw [hsk] at e4
        exact e4
      | some kpt =>
        obtain ⟨kp, kt⟩ := kpt
        rw [hsk] at e4
        obtain ⟨elink, pacc1, ek1, ek2⟩ := e4
        refine ⟨elink, ?_⟩
        by_cases hkp : kp = q
        · subst hkp
          have hpacc1 : pacc1 = acc := by
            rw [hl] at ek1
            exact (Option.some_inj.1 ek1).symm
          refine ⟨acc2, alookup_aset _ _ _, ?_⟩
          rw [hf4, ← hpacc1]
          exact ek2
        · refine ⟨pacc1, ?_, ek2⟩
          rw [alookup_aset_ne _ q kp acc2 hkp]
          exact ek1

theorem walkAdd_none (fuel : Nat) (cash : Cash) (amount : Rat) (cur : Str) (initial : Bool) :
    Cash.walkAdd fuel cash none amount cur initial = some cash := by
  cases fuel <;> rfl

/-- What the parent-chain walk of `process_account` computes, by induction on
the length of the starting name: every chain account is accumulated exactly
once, everything else is untouched, and the invariant is preserved. -/
theorem walkAdd_spec_aux :
    ∀ (n : Nat) (q : Str), q.length ≤ n → ∀ (cash : Cash), cash.inv = true →
    ∀ acc, alookup cash.accounts q = some acc →
    ∀ (fuel : Nat), q.length < fuel →
    ∀ (amount : Rat) (cur : Str) (initial : Bool),
    ∃ cash2, Cash.walkAdd fuel cash (some q) amount cur initial = some cash2 ∧
      cash2.inv = true ∧
      cash2.currency = cash.currency ∧ cash2.rates = cash.rates ∧
      (∀ p, p ∉ ancestorChain q → alookup cash2.accounts p = alookup cash.accounts p) ∧
      (∀ p, p ∈ ancestorChain q → ∃ a1, alookup cash.accounts p = some a1 ∧
          alookup cash2.accounts p = some (a1.add amount cur initial)) := by
  intro n
  induction n with
  | zero =>
    intro q hq cash hinv acc hl fuel hfuel amount cur initial
    have hq0 : q = [] := List.length_eq_zero.1 (Nat.le_zero.1 hq)
    subst hq0
    have := (inv_lookup cash hinv [] acc hl).1
    exact absurd this (by decide)
  | succ n ih =>
    intro q hq cash hinv acc hl fuel hfuel amount cur initial
    obtain ⟨f, rfl⟩ : ∃ f, fuel = f + 1 := by
      cases fuel with
      | zero => omega
      | succ f => exact ⟨f, rfl⟩
    have hprops := inv_lookup cash hinv q acc hl
    obtain ⟨hroot, hqname, hrev, hparent⟩ := hprops
    have hstep : Cash.walkAdd (f + 1) cash (some q) amount cur initial =
        Cash.walkAdd f
          (Cash.mk (aset cash.accounts q (acc.add amount cur initial))
            cash.currency cash.rates)
          acc.parent amount cur initial := by
      show (match alookup cash.accounts q with
            | none => none
            | some a =>
              Cash.walkAdd f
                (Cash.mk (aset cash.accounts q (a.add amount cur initial))
                  cash.currency cash.rates)
                a.parent amount cur initial) = _
      rw [hl]
    have hinvN : (Cash.mk (aset cash.accounts q (acc.add amount cur initial))
        cash.currency cash.rates).inv = true :=
      inv_set_like cash hinv q acc hl (acc.add amount cur initial) rfl rfl rfl rfl _ _
    cases hsp : splitLastColon q with
    | none =>
      have hpnone : acc.parent = none := by
        rw [hsp] at hparent
        exact hparent
      rw [hstep, hpnone]
      have hchain := ancestorChain_no_colon q hsp
      refine ⟨_, walkAdd_none f _ amount cur initial, hinvN, rfl, rfl, ?_, ?_⟩
      · intro p hp
        rw [hchain] at hp
        simp at hp
        exact alookup_aset_ne _ q p _ hp
      · intro p hp
        rw [hchain] at hp
        simp at hp
        subst hp
        exact ⟨acc, hl, alookup_aset _ _ _⟩
    | some pt =>
      obtain ⟨pq, t⟩ := pt
      rw [hsp] at hparent
      obtain ⟨hlink, pacc, hp1, hp2⟩ := hparent
      have hpqroot : firstSeg pq ∈ rootNames := (inv_lookup cash hinv pq pacc hp1).1
      have hpqne : pq ≠ [] := firstSeg_nonempty_of_root pq hpqroot
      have hlen := splitLastColon_length q pq t hsp
      have hchain := ancestorChain_cons q pq t hsp hpqne
      have hq_ne_pq : pq ≠ q := by
        intro he
        rw [he] at hlen
        omega
      have hlN : alookup (aset cash.accounts q (acc.add amount cur initial)) pq = some pacc := by
        rw [alookup_aset_ne _ q pq _ hq_ne_pq]
        exact hp1
      obtain ⟨cash2, hw, hinv2, hcur2, hrat2, hframe2, hchain2⟩ :=
        ih pq (by omega)
          (Cash.mk (aset cash.accounts q (acc.add amount cur initial))
            cash.currency cash.rates)
          hinvN pacc hlN f (by omega) amount cur initial
      rw [hstep, hlink]
      refine ⟨cash2, hw, hinv2, hcur2, hrat2, ?_, ?_⟩
      · intro p hp
        rw [hchain] at hp
        simp only [List.mem_cons, not_or] at hp
        obtain ⟨hp1a, hp2a⟩ := hp
        rw [hframe2 p hp2a]
        exact alookup_aset_ne _ q p _ hp1a
      · intro p hp
        rw [hchain] at hp
        rcases List.mem_cons.1 hp with h1 | h1
        · subst h1
          refine ⟨acc, hl, ?_⟩
          have hqskip : p ∉ ancestorChain pq := by
            intro hmem
            have := ancestorChain_length pq p hmem
            omega
          rw [hframe2 p hqskip]
          exact alookup_aset _ _ _
        · obtain ⟨a1, ha1, ha2⟩ := hchain2 p h1
          have hp_ne_q : p ≠ q := by
            intro he
            have := ancestorChain_length pq p h1
            rw [he] at this
            omega
          rw [alookup_aset_ne _ q p _ hp_ne_q] at ha1
          exact ⟨a1, ha1, ha2⟩

theorem add_bal_eq (acc : Account) (amount : Rat) (cur : Str) (initial : Bool) :
    (acc.add amount cur initial).bal cur =
      acc.bal cur + (if initial then amount else amount * acc.reverse) := by
  unfold Account.add Account.bal
  simp only
  rw [alookup_aset]
  rfl

theorem add_bal_ne (acc : Account) (amount : Rat) (cur c : Str) (initial : Bool)
    (h : c ≠ cur) : (acc.add amount cur initial).bal c = acc.bal c := by
  unfold Account.add Account.bal
  simp only
  rw [alookup_aset_ne _ cur c _ h]

theorem bal_congr (a b : Account) (h : a.balance = b.balance) (c : Str) :
    a.bal c = b.bal c := by
  unfold Account.bal
  rw [h]

/-- The balance an account holds before an operation: the stored balance when
the account exists, and the `pddict` default 0 when it does not exist yet. -/
def preBal (cash : Cash) (p : Str) (c : Str) : Rat :=
  match alookup cash.accounts p with
  | some a => a.bal c
  | none => 0

theorem bal_of_empty (acc : Account) (h : acc.balance = []) (c : Str) : acc.bal c = 0 := by
  unfold Account.bal
  rw [h]
  rfl

/-- Full description of `process_account` on a resolvable name: success, the
invariant, base currency and rate table are preserved, accounts off the
ancestor chain are untouched, and every account on the chain — whether it
existed before or was created by the resolution — ends with its previous
balance (0 for a fresh account) plus the sign-adjusted amount under the
effective currency, and its previous balance under every other currency. -/
theorem process_account_spec_aux (cash : Cash) (hinv : cash.inv = true)
    (name : Str) (amount : Rat) (currency : Option Str) (initial : Bool)
    (hroot : firstSeg name ∈ rootNames) :
    ∃ cash2, cash.process_account name amount currency initial = some cash2 ∧
      cash2.inv = true ∧
      cash2.currency = cash.currency ∧
      cash2.rates = cash.rates ∧
      (∀ p a1, alookup cash.accounts p = some a1 → p ∉ ancestorChain name →
        alookup cash2.accounts p = some a1) ∧
      (∀ p, p ∈ ancestorChain name →
        ∃ a2, alookup cash2.accounts p = some a2 ∧
          (∀ c, c ≠ effCurrency currency cash.currency →
            a2.bal c = preBal cash p c) ∧
          a2.bal (effCurrency currency cash.currency) =
            preBal cash p (effCurrency currency cash.currency) +
              (if initial then amount else amount * a2.reverse)) := by
  have hsome := get_account_some_aux name.length name (le_refl _) cash hinv hroot
  cases hg : cash.get_account name with
  | none =>
    rw [hg] at hsome
    cases hsome
  | some r =>
    obtain ⟨cash1, account⟩ := r
    obtain ⟨S1, S2, S3, S4, S5, S6, S7, S8, S9⟩ := get_account_spec cash hinv name cash1 account hg
    obtain ⟨cash2, hw, W1, W2, W3, W4, W5⟩ :=
      walkAdd_spec_aux name.length name (le_refl _) cash1 S1 account S3
        (name.length + 1) (by omega) amount (effCurrency currency cash.currency) initial
    have hval : cash.process_account name amount currency initial = some cash2 := by
      unfold Cash.process_account
      rw [hg]
      simp only
      rw [S2]
      exact hw
    refine ⟨cash2, hval, W1, W2.trans S4, W3.trans S5, ?_, ?_⟩
    · intro p a1 hp1 hpn
      rw [W4 p hpn, S6 p hpn]
      exact hp1
    · intro p hpc
      obtain ⟨b1, hb1, hb2⟩ := W5 p hpc
      have hrev : (b1.add amount (effCurrency currency cash.currency) initial).reverse
          = b1.reverse := rfl
      cases hpre : alookup cash.accounts p with
      | some a0 =>
        obtain ⟨bx, hbx, hbbal, hbrev, _, _, _, _⟩ := S7 p a0 hpre
        have hbb : bx = b1 := by
          rw [hbx] at hb1
          exact Option.some_inj.1 hb1
        subst hbb
        have hpb : ∀ c, preBal cash p c = a0.bal c := by
          intro c
          unfold preBal
          rw [hpre]
        refine ⟨bx.add amount (effCurrency currency cash.currency) initial, hb2, ?_, ?_⟩
        · intro c hc
          rw [add_bal_ne bx amount _ c initial hc, hpb c]
          exact bal_congr bx a0 hbbal c
        · rw [hrev, add_bal_eq bx amount _ initial, hpb, bal_congr bx a0 hbbal, hbrev]
      | none =>
        have hbal : b1.balance = [] := S9 p b1 hpre hb1
        have hpb : ∀ c, preBal cash p c = 0 := by
          intro c
          unfold preBal
          rw [hpre]
        refine ⟨b1.add amount (effCurrency currency cash.currency) initial, hb2, ?_, ?_⟩
        · intro c hc
          rw [add_bal_ne b1 amount _ c initial hc, hpb c]
          exact bal_of_empty b1 hbal c
        · rw [hrev, add_bal_eq b1 amount _ initial, hpb, bal_of_empty b1 hbal]

theorem process_account_eq (cash : Cash) (name : Str) (amount : Rat)
    (currency : Option Str) (initial : Bool) :
    cash.process_account name amount currency initial =
      (match cash.get_account name with
       | none => none
       | some (cash1, account) =>
         Cash.walkAdd (account.qname.length + 1) cash1 (some account.qname) amount
           (effCurrency currency cash.currency) initial) := rfl

/-- C2: `accumulate` adds the raw amount to the balance for the given currency
when `isInitial` is true and the amount multiplied by the node's sign
multiplier otherwise, leaving other currencies untouched; and in every ledger
reachable from the initial state the sign multiplier of each account is `+1`
when its path starts at the assets or expenses root and `-1` when it starts at
the liabilities or income root. -/
theorem account_add_sign_spec :
    (∀ (acc : Account) (amount : Rat) (cur : Str),
       (acc.add amount cur true).bal cur = acc.bal cur + amount ∧
       (acc.add amount cur false).bal cur = acc.bal cur + amount * acc.reverse ∧
       (∀ c, c ≠ cur → ∀ initial, (acc.add amount cur initial).bal c = acc.bal c)) ∧
    (∀ (cash : Cash), cash.inv = true → ∀ q acc, alookup cash.accounts q = some acc →
       acc.reverse =
         (if firstSeg q = "a".toList ∨ firstSeg q = "e".toList then (1 : Rat) else -1)) ∧
    (∀ c, (Cash.init c).inv = true) ∧
    (∀ cash q c2 acc, Cash.inv cash = true → Cash.get_account cash q = some (c2, acc) →
       c2.inv = true) ∧
    (∀ cash name amount currency initial cash2, Cash.inv cash = true →
       Cash.process_account cash name amount currency initial = some cash2 →
       cash2.inv = true) := by
  refine ⟨?_, ?_, ?_, ?_, ?_⟩
  · intro acc amount cur
    refine ⟨?_, ?_, ?_⟩
    · rw [add_bal_eq]
      simp
    · rw [add_bal_eq]
      simp
    · intro c hc initial
      exact add_bal_ne acc amount cur c initial hc
  · intro cash hinv q acc hl
    rw [(inv_lookup cash hinv q acc hl).2.2.1]
    rfl
  · exact inv_init
  · intro cash q c2 acc hinv hg
    exact (get_account_spec cash hinv q c2 acc hg).1
  · intro cash name amount currency initial cash2 hinv hp
    by_cases hroot : firstSeg name ∈ rootNames
    · obtain ⟨c2a, hval, hinv2, _⟩ :=
        process_account_spec_aux cash hinv name amount currency initial hroot
      rw [hval] at hp
      rw [← Option.some_inj.1 hp]
      exact hinv2
    · have hnone := get_account_none_aux name.length name (le_refl _) cash hinv hroot
      rw [process_account_eq, hnone] at hp
      cases hp

/-- C2 witness: on the concrete initial ledger, the liabilities root carries
sign multiplier `-1`. -/
theorem account_add_sign_spec_witness :
    (Account.make "l".toList "liabilities".toList (some (-1)) none).reverse =
      (if firstSeg "l".toList = "a".toList ∨ firstSeg "l".toList = "e".toList
        then (1 : Rat) else -1) :=
  account_add_sign_spec.2.1 (Cash.init none) (by decide) "l".toList
    (Account.make "l".toList "liabilities".toList (some (-1)) none) (by decide)

/-- C3: applying one operation accumulates its amount — sign-adjusted unless
initial, under the operation's currency or the base currency when that is null
— on the resolved account and on every ancestor up to and including its root,
whether that account already existed or was created by the resolution (a fresh
account starts from balance 0), and changes nothing else: accounts off the
chain are untouched, chain accounts keep their previous balance under every
other currency, and the rate table and base currency are preserved. -/
theorem process_account_frame (cash : Cash) (hinv : cash.inv = true) (op : Op)
    (hroot : firstSeg op.account ∈ rootNames) :
    ∃ cash2, cash.process_account op.account op.amount op.currency op.initial = some cash2 ∧
      cash2.currency = cash.currency ∧
      cash2.rates = cash.rates ∧
      (∀ p a1, alookup cash.accounts p = some a1 → p ∉ ancestorChain op.account →
        alookup cash2.accounts p = some a1) ∧
      (∀ p, p ∈ ancestorChain op.account →
        ∃ a2, alookup cash2.accounts p = some a2 ∧
          (∀ c, c ≠ effCurrency op.currency cash.currency →
            a2.bal c = preBal cash p c) ∧
          a2.bal (effCurrency op.currency cash.currency) =
            preBal cash p (effCurrency op.currency cash.currency) +
              (if op.initial then op.amount else op.amount * a2.reverse)) := by
  obtain ⟨cash2, hval, hinv2, hcur, hrat, hoff, hon⟩ :=
    process_account_spec_aux cash hinv op.account op.amount op.currency op.initial hroot
  exact ⟨cash2, hval, hcur, hrat, hoff, hon⟩

/-- C3 witness: a concrete expense operation on the initial ledger, whose
resolved leaf `e:food` is created by the very resolution. -/
theorem process_account_frame_witness :
    ∃ cash2, (Cash.init none).process_account
        (Op.mk false ⟨2014, 1, 1⟩ "e:food".toList 200 none none).account
        (Op.mk false ⟨2014, 1, 1⟩ "e:food".toList 200 none none).amount
        (Op.mk false ⟨2014, 1, 1⟩ "e:food".toList 200 none none).currency
        (Op.mk false ⟨2014, 1, 1⟩ "e:food".toList 200 none none).initial = some cash2 ∧
      cash2.currency = (Cash.init none).currency ∧
      cash2.rates = (Cash.init none).rates ∧
      (∀ p a1, alookup (Cash.init none).accounts p = some a1 →
        p ∉ ancestorChain (Op.mk false ⟨2014, 1, 1⟩ "e:food".toList 200 none none).account →
        alookup cash2.accounts p = some a1) ∧
      (∀ p, p ∈ ancestorChain (Op.mk false ⟨2014, 1, 1⟩ "e:food".toList 200 none none).account →
        ∃ a2, alookup cash2.accounts p = some a2 ∧
          (∀ c, c ≠ effCurrency (Op.mk false ⟨2014, 1, 1⟩ "e:food".toList 200 none none).currency
              (Cash.init none).currency →
            a2.bal c = preBal (Cash.init none) p c) ∧
          a2.bal (effCurrency (Op.mk false ⟨2014, 1, 1⟩ "e:food".toList 200 none none).currency
              (Cash.init none).currency) =
            preBal (Cash.init none) p
                (effCurrency (Op.mk false ⟨2014, 1, 1⟩ "e:food".toList 200 none none).currency
                  (Cash.init none).currency) +
              (if (Op.mk false ⟨2014, 1, 1⟩ "e:food".toList 200 none none).initial
                then (Op.mk false ⟨2014, 1, 1⟩ "e:food".toList 200 none none).amount
                else (Op.mk false ⟨2014, 1, 1⟩ "e:food".toList 200 none none).amount
                  * a2.reverse)) :=
  process_account_frame (Cash.init none) (by decide)
    (Op.mk false ⟨2014, 1, 1⟩ "e:food".toList 200 none none) (by decide)

/-- C4: `get_account` fails with the unknown-root `KeyError` exactly when the
first colon-segment of the requested path is not one of the root names `a`,
`e`, `l`, `i` — so a single-segment non-root path fails, there is no implicit
creation of new roots, and any path whose first segment is a root succeeds. -/
theorem get_account_unknown_root_iff (cash : Cash) (hinv : cash.inv = true) (q : Str) :
    cash.get_account q = none ↔ firstSeg q ∉ rootNames := by
  constructor
  · intro hn hroot
    have hs := get_account_some_aux q.length q (le_refl _) cash hinv hroot
    rw [hn] at hs
    cases hs
  · intro hroot
    exact get_account_none_aux q.length q (le_refl _) cash hinv hroot

/-- C4 witness: on the initial ledger, the non-root path `x:y` fails and the
root path `a` does not. -/
theorem get_account_unknown_root_iff_witness :
    ((Cash.init none).get_account "x:y".toList = none ↔
      firstSeg "x:y".toList ∉ rootNames) ∧
    ((Cash.init none).get_account "a".toList = none ↔
      firstSeg "a".toList ∉ rootNames) :=
  ⟨get_account_unknown_root_iff (Cash.init none) (by decide) "x:y".toList,
   get_account_unknown_root_iff (Cash.init none) (by decide) "a".toList⟩

/-- C5: account resolution is idempotent — after a successful call the same
path immediately resolves to the very same node with the ledger unchanged — a
single call creates the whole missing ancestor chain up to the leaf, and every
newly created node is registered both in the global lookup and in its parent's
child mapping, inheriting the parent's sign multiplier. -/
theorem get_account_idempotent (cash : Cash) (hinv : cash.inv = true) (q : Str)
    (c2 : Cash) (acc : Account) (hg : cash.get_account q = some (c2, acc)) :
    c2.get_account q = some (c2, acc) ∧
    (∀ p, p ∈ ancestorChain q → (alookup c2.accounts p).isSome = true) ∧
    (∀ p, p ∈ ancestorChain q → alookup cash.accounts p = none →
      ∃ pq t a2 pacc, splitLastColon p = some (pq, t) ∧
        alookup c2.accounts p = some a2 ∧ alookup c2.accounts pq = some pacc ∧
        a2.reverse = pacc.reverse ∧ alookup pacc.accounts t = some p) := by
  obtain ⟨S1, S2, S3, S4, S5, S6, S7, S8, S9⟩ := get_account_spec cash hinv q c2 acc hg
  refine ⟨?_, S8, ?_⟩
  · unfold Cash.get_account
    rw [S3]
  · intro p hp hnone
    have hps := S8 p hp
    cases hpl : alookup c2.accounts p with
    | none =>
      rw [hpl] at hps
      cases hps
    | some a2 =>
      obtain ⟨hroot2, hq2, hrev2, hpar2⟩ := inv_lookup c2 S1 p a2 hpl
      cases hsp : splitLastColon p with
      | none =>
        have hp_root : p ∈ rootNames := by
          rw [← splitLastColon_none_no_colon p hsp]
          exact hroot2
        have hpre := inv_roots cash hinv p hp_root
        rw [hnone] at hpre
        cases hpre
      | some pt =>
        obtain ⟨pq, t⟩ := pt
        rw [hsp] at hpar2
        obtain ⟨hlink, pacc, hpc1, hpc2⟩ := hpar2
        refine ⟨pq, t, a2, pacc, rfl, rfl, hpc1, ?_, hpc2⟩
        have hpaccprops := inv_lookup c2 S1 pq pacc hpc1
        have hpqne : pq ≠ [] := firstSeg_nonempty_of_root pq hpaccprops.1
        rw [hrev2, hpaccprops.2.2.1]
        exact (signOf_eq_of_firstSeg pq p (firstSeg_of_parent p pq t hsp hpqne)).symm

/-- C5 witness: resolving `a:pocket` on the initial ledger and applying the
idempotence and registration properties to the result. -/
theorem get_account_idempotent_witness :
    ∃ c2 acc, (Cash.init none).get_account "a:pocket".toList = some (c2, acc) ∧
      c2.get_account "a:pocket".toList = some (c2, acc) ∧
      (∀ p, p ∈ ancestorChain "a:pocket".toList →
        (alookup c2.accounts p).isSome = true) ∧
      (∀ p, p ∈ ancestorChain "a:pocket".toList →
        alookup (Cash.init none).accounts p = none →
        ∃ pq t a2 pacc, splitLastColon p = some (pq, t) ∧
          alookup c2.accounts p = some a2 ∧ alookup c2.accounts pq = some pacc ∧
          a2.reverse = pacc.reverse ∧ alookup pacc.accounts t = some p) := by
  have hsome := get_account_some_aux ("a:pocket".toList).length "a:pocket".toList
    (le_refl _) (Cash.init none) (by decide) (by decide)
  cases hg : (Cash.init none).get_account "a:pocket".toList with
  | none =>
    rw [hg] at hsome
    cases hsome
  | some r =>
    obtain ⟨c2, acc⟩ := r
    obtain ⟨h1, h2, h3⟩ := get_account_idempotent (Cash.init none) (by decide)
      "a:pocket".toList c2 acc hg
    exact ⟨c2, acc, rfl, h1, h2, h3⟩

/-- C6: conversion is the identity on equal currencies; otherwise it is a
single direct lookup keyed by the concatenated pair, failing exactly when that
key is absent — no reverse-pair entry or transitive chain can make it
succeed — and multiplying by the stored rate when present. -/
theorem convert_amount_spec (cash : Cash) (f t : Str) (amount : Rat) :
    (f = t → cash.convert_amount f t amount = some amount) ∧
    (f ≠ t →
      ((cash.convert_amount f t amount = none ↔ alookup cash.rates (f ++ t) = none) ∧
       (∀ r, alookup cash.rates (f ++ t) = some r →
          cash.convert_amount f t amount = some (amount * r)))) := by
  constructor
  · intro h
    unfold Cash.convert_amount
    rw [if_pos h]
  · intro h
    constructor
    · unfold Cash.convert_amount
      rw [if_neg h]
      cases hr : alookup cash.rates (f ++ t) with
      | none => simp
      | some r => simp
    · intro r hr
      unfold Cash.convert_amount
      rw [if_neg h, hr]

/-- C6 witness: with no rate registered, converting between distinct
currencies fails, and converting a currency to itself is the identity. -/
theorem convert_amount_spec_witness :
    ((Cash.init none).convert_amount "USD".toList "USD".toList 5 = some 5) ∧
    ((Cash.init none).convert_amount "RUR".toList "USD".toList 5 = none ↔
      alookup (Cash.init none).rates ("RUR".toList ++ "USD".toList) = none) :=
  ⟨(convert_amount_spec (Cash.init none) "USD".toList "USD".toList 5).1 rfl,
   ((convert_amount_spec (Cash.init none) "RUR".toList "USD".toList 5).2 (by decide)).1⟩

theorem apply_operations_eq_foldlM (ops : List Op) :
    ∀ cash : Cash, Cash.apply_operations cash ops =
      List.foldlM
        (fun c op => Cash.process_account c op.account op.amount op.currency op.initial)
        cash ops := by
  induction ops with
  | nil =>
    intro cash
    rfl
  | cons op rest ih =>
    intro cash
    rw [List.foldlM_cons]
    show (match cash.process_account op.account op.amount op.currency op.initial with
          | none => none
          | some c => c.apply_operations rest) = _
    cases h : cash.process_account op.account op.amount op.currency op.initial with
    | none => simp [h]
    | some c => simp [h, ih c]

/-- C7: date filtering keeps exactly the operations inside the half-open
window — at least `dateStart` when given, strictly before `dateEnd` when given,
so an operation dated exactly `dateStart` is kept and one dated exactly
`dateEnd` is dropped — in the input order, and applying the filtered sequence
processes each surviving operation in that order with none rejected. -/
theorem filter_ops_halfOpen (ops : List Op) (start stop : Option PDate) :
    List.Sublist (filter_ops ops start stop) ops ∧
    (∀ op, op ∈ filter_ops ops start stop ↔ op ∈ ops ∧
      (∀ d, start = some d → dateLe d op.dt = true) ∧
      (∀ d, stop = some d → dateLt op.dt d = true)) ∧
    (∀ d : PDate, dateLe d d = true ∧ dateLt d d = false) ∧
    (∀ cash : Cash, Cash.apply_operations cash (filter_ops ops start stop) =
      List.foldlM
        (fun c op => Cash.process_account c op.account op.amount op.currency op.initial)
        cash (filter_ops ops start stop)) := by
  refine ⟨List.filter_sublist _, ?_, ?_, ?_⟩
  · intro op
    unfold filter_ops
    rw [List.mem_filter]
    cases start <;> cases stop <;> simp [dateLe, dateLt]
  · intro d
    constructor
    · simp [dateLe]
    · simp [dateLt]
  · intro cash
    exact apply_operations_eq_foldlM (filter_ops ops start stop) cash

/-- C7 witness: an operation dated exactly at the bounds is kept at the start
bound and dropped at the stop bound. -/
theorem filter_ops_halfOpen_witness :
    dateLe ⟨2019, 5, 10⟩ ⟨2019, 5, 10⟩ = true ∧ dateLt ⟨2019, 5, 10⟩ ⟨2019, 5, 10⟩ = false :=
  (filter_ops_halfOpen [] none none).2.2.1 ⟨2019, 5, 10⟩

/-- C9 witness: the amended statement applied to a concrete valid date. -/
theorem month_range_prev_month_spec_witness :
    prev_month ⟨2019, 1, 10⟩ = some ⟨2018, 12, 10⟩ :=
  (month_range_prev_month_spec ⟨2019, 1, 10⟩ (by decide)).2.2.2

/-! ### Tokens, the token feed, and the parser -/

inductive TokId where
  | lend
  | indent
  | date
  | comment
  | number
  | id
  | cid
  | currency
  | rate
  | initial
  | split
  | rev
deriving DecidableEq

/-- Token payloads: strings, numbers, dates, or `None` (line terminators). -/
inductive TokVal where
  | null
  | str (s : Str)
  | num (q : Rat)
  | date (d : PDate)
deriving DecidableEq

def TokVal.toStr : TokVal → Str
  | .str s => s
  | _ => []

def TokVal.toNum : TokVal → Rat
  | .num q => q
  | _ => 0

def TokVal.toDate : TokVal → PDate
  | .date d => d
  | _ => INITDATE

/-- `Token = namedtuple('Token', 'id value line')`. -/
structure Token where
  id : TokId
  value : TokVal
  line : Nat
deriving DecidableEq

/-- The `TokenFeed` state: the one-token push-back buffer and the tokens the
lexer has not yet produced.  `none` results model `StopIteration`. -/
structure Feed where
  item : Option Token
  rest : List Token
deriving DecidableEq

def Feed.pop (fd : Feed) : Option (Token × Feed) :=
  match fd.item with
  | some t => some (t, ⟨none, fd.rest⟩)
  | none =>
    match fd.rest with
    | [] => none
    | t :: ts => some (t, ⟨none, ts⟩)

def Feed.peek (fd : Feed) : Option (Token × Feed) :=
  match fd.pop with
  | none => none
  | some (t, fd2) => some (t, { fd2 with item := some t })

/-- `skipif`: pop, conditionally consume on matching id (and value if given),
otherwise push the token back. -/
def Feed.skipif (fd : Feed) (i : TokId) (v : Option TokVal) : Option (Bool × Feed) :=
  match fd.pop with
  | none => none
  | some (t, fd2) =>
    if t.id = i ∧ (v = none ∨ v = some t.value) then some (true, fd2)
    else some (false, { fd2 with item := some t })

def Feed.nextis (fd : Feed) (i : TokId) : Option (Bool × Feed) :=
  match fd.peek with
  | none => none
  | some (t, fd2) => some (t.id = i, fd2)

/-- `get`: the value of the next token if it has the wanted id, else nothing,
consuming only on success. -/
def Feed.get (fd : Feed) (i : TokId) : Option (Option TokVal × Feed) :=
  match fd.nextis i with
  | none => none
  | some (true, fd2) =>
    match fd2.pop with
    | none => none
    | some (t, fd3) => some (some t.value, fd3)
  | some (false, fd2) => some (none, fd2)

/-- Result of one token-level pop with the required-kind check of `popany`:
`eos` models `StopIteration`, `err` the raised parse `Exception`. -/
inductive FRes (α : Type) where
  | ok (a : α)
  | eos
  | err (line : Nat)

def Feed.popany (fd : Feed) (ids : List TokId) : FRes (Token × Feed) :=
  match fd.pop with
  | none => .eos
  | some (t, fd2) => if t.id ∈ ids then .ok (t, fd2) else .err t.line

/-- `config` built by `parse`. -/
structure Config where
  currency : Option Str
  rates : List (Str × Rat)
  ops : List Op
deriving DecidableEq

def Config.init : Config := ⟨none, [], []⟩

/-- Parser outcomes over a state type: success, end of input carrying the
mutated state, a raised parse error, or exhausted fuel. -/
inductive PRes (σ : Type) (α : Type) where
  | ok (a : α)
  | eos (st : σ)
  | err (line : Nat)
  | more

/-- The `while self.skipif(INDENT, indent): func()` loop of the combinator. -/
def indentLoop {σ : Type} (f : Nat → Feed → σ → PRes σ (Feed × σ)) :
    Nat → TokVal → Feed → σ → PRes σ (Feed × σ)
  | 0, _, _, _ => .more
  | n + 1, v, fd, st =>
    match fd.skipif TokId.indent (some v) with
    | none => .eos st
    | some (false, fd2) => .ok (fd2, st)
    | some (true, fd2) =>
      match f n fd2 st with
      | .ok (fd3, st3) => indentLoop f n v fd3 st3
      | e => e

/-- The block-or-inline combinator `TokenFeed.indent`. -/
def TokenFeed.indent {σ : Type} (f : Nat → Feed → σ → PRes σ (Feed × σ)) :
    Nat → Feed → σ → PRes σ (Feed × σ)
  | 0, _, st => .more
  | n + 1, fd, st =>
    match fd.skipif TokId.lend none with
    | none => .eos st
    | some (true, fd2) =>
      match fd2.peek with
      | none => .eos st
      | some (t, fd3) => indentLoop f n t.value fd3 st
    | some (false, fd2) => f n fd2 st

/-- One `rate` line: identifier (pair code), number, terminator. -/
def parse_rate_line : Nat → Feed → Config → PRes Config (Feed × Config) :=
  fun _n fd st =>
    match fd.popany [TokId.id] with
    | .eos => .eos st
    | .err l => .err l
    | .ok (tcur, fd1) =>
      match fd1.popany [TokId.number] with
      | .eos => .eos st
      | .err l => .err l
      | .ok (tnum, fd2) =>
        match fd2.popany [TokId.lend] with
        | .eos => .eos { st with rates := aset st.rates tcur.value.toStr tnum.value.toNum }
        | .err l => .err l
        | .ok (_, fd3) =>
          .ok (fd3, { st with rates := aset st.rates tcur.value.toStr tnum.value.toNum })

def parse_rate (n : Nat) : Feed → Config → PRes Config (Feed × Config) :=
  TokenFeed.indent parse_rate_line n

/-- One `initial` line: account, number, optional currency, optional comment,
terminator; appends a single initial operation dated at the epoch sentinel. -/
def parse_initial_line : Nat → Feed → Config → PRes Config (Feed × Config) :=
  fun _n fd st =>
    match fd.popany [TokId.cid] with
    | .eos => .eos st
    | .err l => .err l
    | .ok (tacc, fd1) =>
      match fd1.popany [TokId.number] with
      | .eos => .eos st
      | .err l => .err l
      | .ok (tnum, fd2) =>
        match fd2.get TokId.id with
        | none => .eos st
        | some (curv, fd3) =>
          match fd3.get TokId.comment with
          | none => .eos st
          | some (comv, fd4) =>
            match fd4.popany [TokId.lend] with
            | .eos => .eos { st with ops := st.ops ++
                [Op.mk true INITDATE tacc.value.toStr tnum.value.toNum
                  (curv.map TokVal.toStr) (comv.map TokVal.toStr)] }
            | .err l => .err l
            | .ok (_, fd5) => .ok (fd5, { st with ops := st.ops ++
                [Op.mk true INITDATE tacc.value.toStr tnum.value.toNum
                  (curv.map TokVal.toStr) (comv.map TokVal.toStr)] })

def parse_initial (n : Nat) : Feed → Config → PRes Config (Feed × Config) :=
  TokenFeed.indent parse_initial_line n

/-- One amount line of a non-split dated entry: number, optional currency,
optional comment, then the two paired operations are appended together before
the terminator is pulled. -/
def parse_op (reverse : Bool) (dt : PDate) (acc1 acc2 : Str) :
    Nat → Feed → Config → PRes Config (Feed × Config) :=
  fun _n fd st =>
    match fd.popany [TokId.number] with
    | .eos => .eos st
    | .err l => .err l
    | .ok (tnum, fd1) =>
      match fd1.get TokId.id with
      | none => .eos st
      | some (curv, fd2) =>
        match fd2.get TokId.comment with
        | none => .eos st
        | some (comv, fd3) =>
          match fd3.popany [TokId.lend] with
          | .eos => .eos { st with ops := st.ops ++
              [Op.mk false dt acc1 (-(if reverse then -tnum.value.toNum else tnum.value.toNum))
                (curv.map TokVal.toStr) (comv.map TokVal.toStr),
               Op.mk false dt acc2 (if reverse then -tnum.value.toNum else tnum.value.toNum)
                (curv.map TokVal.toStr) (comv.map TokVal.toStr)] }
          | .err l => .err l
          | .ok (_, fd4) => .ok (fd4, { st with ops := st.ops ++
              [Op.mk false dt acc1 (-(if reverse then -tnum.value.toNum else tnum.value.toNum))
                (curv.map TokVal.toStr) (comv.map TokVal.toStr),
               Op.mk false dt acc2 (if reverse then -tnum.value.toNum else tnum.value.toNum)
                (curv.map TokVal.toStr) (comv.map TokVal.toStr)] })

/-- One `to` block: second account, then block-or-inline amount lines. -/
def parse_to (reverse : Bool) (dt : PDate) (acc1 : Str) :
    Nat → Feed → Config → PRes Config (Feed × Config) :=
  fun n fd st =>
    match fd.popany [TokId.cid] with
    | .eos => .eos st
    | .err l => .err l
    | .ok (tacc2, fd1) =>
      TokenFeed.indent (parse_op reverse dt acc1 tacc2.value.toStr) n fd1 st

/-- One amount line of a `split` account block: a single literal operation. -/
def parse_split_op (dt : PDate) (acc : Str) :
    Nat → Feed → Config → PRes Config (Feed × Config) :=
  fun _n fd st =>
    match fd.popany [TokId.number] with
    | .eos => .eos st
    | .err l => .err l
    | .ok (tnum, fd1) =>
      match fd1.get TokId.id with
      | none => .eos st
      | some (curv, fd2) =>
        match fd2.get TokId.comment with
        | none => .eos st
        | some (comv, fd3) =>
          match fd3.popany [TokId.lend] with
          | .eos => .eos { st with ops := st.ops ++
              [Op.mk false dt acc tnum.value.toNum
                (curv.map TokVal.toStr) (comv.map TokVal.toStr)] }
          | .err l => .err l
          | .ok (_, fd4) => .ok (fd4, { st with ops := st.ops ++
              [Op.mk false dt acc tnum.value.toNum
                (curv.map TokVal.toStr) (comv.map TokVal.toStr)] })

/-- One `split` account block: account path, then amount lines. -/
def parse_split_acc (dt : PDate) : Nat → Feed → Config → PRes Config (Feed × Config) :=
  fun n fd st =>
    match fd.popany [TokId.cid] with
    | .eos => .eos st
    | .err l => .err l
    | .ok (tacc, fd1) =>
      TokenFeed.indent (parse_split_op dt tacc.value.toStr) n fd1 st

/-- The `from` parse of a dated entry: split branch, or optional `rev`, first
account, then block-or-inline `to` parses. -/
def parse_from (dt : PDate) : Nat → Feed → Config → PRes Config (Feed × Config) :=
  fun n fd st =>
    match fd.skipif TokId.split none with
    | none => .eos st
    | some (true, fd1) => TokenFeed.indent (parse_split_acc dt) n fd1 st
    | some (false, fd1) =>
      match fd1.skipif TokId.rev none with
      | none => .eos st
      | some (reverse, fd2) =>
        match fd2.popany [TokId.cid] with
        | .eos => .eos st
        | .err l => .err l
        | .ok (tacc1, fd3) =>
          TokenFeed.indent (parse_to reverse dt tacc1.value.toStr) n fd3 st

def parse_date (dt : PDate) (n : Nat) : Feed → Config → PRes Config (Feed × Config) :=
  TokenFeed.indent (parse_from dt) n

/-- One root-level construct. -/
def parse_root (n : Nat) (fd : Feed) (st : Config) : PRes Config (Feed × Config) :=
  match fd.popany [TokId.rate, TokId.currency, TokId.initial, TokId.date, TokId.comment] with
  | .eos => .eos st
  | .err l => .err l
  | .ok (tok, fd1) =>
    if tok.id = TokId.currency then
      match fd1.popany [TokId.id] with
      | .eos => .eos st
      | .err l => .err l
      | .ok (tcur, fd2) =>
        match fd2.popany [TokId.lend] with
        | .eos => .eos { st with currency := some tcur.value.toStr }
        | .err l => .err l
        | .ok (_, fd3) => .ok (fd3, { st with currency := some tcur.value.toStr })
    else if tok.id = TokId.rate then parse_rate n fd1 st
    else if tok.id = TokId.initial then parse_initial n fd1 st
    else if tok.id = TokId.date then parse_date tok.value.toDate n fd1 st
    else
      match fd1.popany [TokId.lend] with
      | .eos => .eos st
      | .err l => .err l
      | .ok (_, fd2) => .ok (fd2, st)

/-- The top-level loop of `parse`: repeat `parse_root` until the end-of-input
signal surfaces, which is caught and turns the state collected so far into the
result. -/
def parseLoop : Nat → Feed → Config → PRes Config Config
  | 0, _, _ => .more
  | n + 1, fd, st =>
    match parse_root n fd st with
    | .ok (fd2, st2) => parseLoop n fd2 st2
    | .eos st2 => .ok st2
    | .err l => .err l
    | .more => .more

def mkFeed (toks : List Token) : Feed := ⟨none, toks⟩

def parse (fuel : Nat) (toks : List Token) : PRes Config Config :=
  parseLoop fuel (mkFeed toks) Config.init

/-- One block run of the combinator, following the specification's words: while
the next token is an indentation marker whose value equals the fixed indent
string, consume it and invoke the continuation once; stop at the first token
whose indentation differs or is absent.  The index counts the invocations. -/
inductive IndentRun {σ : Type} (F : Feed → σ → Feed → σ → Prop) (v : TokVal) :
    Feed → σ → Feed → σ → Nat → Prop where
  | stop : ∀ fd st fd2, fd.skipif TokId.indent (some v) = some (false, fd2) →
      IndentRun F v fd st fd2 st 0
  | step : ∀ fd st fd2 fd3 st3 fd4 st4 k,
      fd.skipif TokId.indent (some v) = some (true, fd2) →
      F fd2 st fd3 st3 →
      IndentRun F v fd3 st3 fd4 st4 k →
      IndentRun F v fd st fd4 st4 (k + 1)

/-- Soundness of the loop against the specification relation: every successful
run of the loop is an `IndentRun`, invoking the continuation exactly once per
leading matching indentation token. -/
theorem indentLoop_sound {σ : Type} (f : Nat → Feed → σ → PRes σ (Feed × σ)) :
    ∀ (n : Nat) (v : TokVal) (fd : Feed) (st : σ) (fd4 : Feed) (st4 : σ),
    indentLoop f n v fd st = .ok (fd4, st4) →
    ∃ k, IndentRun (fun a b c d => ∃ m, f m a b = .ok (c, d)) v fd st fd4 st4 k := by
  intro n
  induction n with
  | zero =>
    intro v fd st fd4 st4 h
    cases h
  | succ n ih =>
    intro v fd st fd4 st4 h
    unfold indentLoop at h
    cases hsk : fd.skipif TokId.indent (some v) with
    | none =>
      rw [hsk] at h
      cases h
    | some p =>
      obtain ⟨b, fd2⟩ := p
      rw [hsk] at h
      cases b with
      | false =>
        simp only at h
        injection h with hpair
        injection hpair with h1 h2
        refine ⟨0, ?_⟩
        rw [← h1, ← h2]
        exact IndentRun.stop fd st fd2 hsk
      | true =>
        simp only at h
        cases hf : f n fd2 st with
        | ok r =>
          obtain ⟨fd3, st3⟩ := r
          rw [hf] at h
          obtain ⟨k, hrun⟩ := ih v fd3 st3 fd4 st4 h
          exact ⟨k + 1, IndentRun.step fd st fd2 fd3 st3 fd4 st4 k hsk ⟨n, hf⟩ hrun⟩
        | eos st3 =>
          rw [hf] at h
          cases h
        | err l =>
          rw [hf] at h
          cases h
        | more =>
          rw [hf] at h
          cases h

/-- C8 (amended): when the next token is not a line-terminator the combinator
invokes the continuation exactly once inline, consuming nothing; when the next
token is a line-terminator it consumes it, fixes the expected indent string as
the value of the next peeked token, and any successful outcome is a run that
invoked the continuation once per leading line whose indentation token's value
equals that string exactly, stopping at the first token whose indentation
differs or is absent — the number of such lines may be zero. -/
theorem TokenFeed_indent_succ {σ : Type} (f : Nat → Feed → σ → PRes σ (Feed × σ))
    (n : Nat) (fd : Feed) (st : σ) :
    TokenFeed.indent f (n + 1) fd st =
      (match fd.skipif TokId.lend none with
       | none => PRes.eos st
       | some (true, fd2) =>
         match fd2.peek with
         | none => PRes.eos st
         | some (t, fd3) => indentLoop f n t.value fd3 st
       | some (false, fd2) => f n fd2 st) := rfl

theorem TokenFeed_indent_spec {σ : Type} (f : Nat → Feed → σ → PRes σ (Feed × σ))
    (n : Nat) (fd : Feed) (st : σ) :
    (∀ t fd2, fd.peek = some (t, fd2) → t.id ≠ TokId.lend →
      TokenFeed.indent f (n + 1) fd st = f n fd2 st) ∧
    (∀ fd1, fd.skipif TokId.lend none = some (true, fd1) →
      ∀ t fd2, fd1.peek = some (t, fd2) →
      TokenFeed.indent f (n + 1) fd st = indentLoop f n t.value fd2 st ∧
      (∀ fd4 st4, TokenFeed.indent f (n + 1) fd st = .ok (fd4, st4) →
        ∃ k, IndentRun (fun a b c d => ∃ m, f m a b = .ok (c, d))
          t.value fd2 st fd4 st4 k)) := by
  constructor
  · intro t fd2 hpeek hne
    unfold Feed.peek at hpeek
    cases hpop : fd.pop with
    | none =>
      rw [hpop] at hpeek
      cases hpeek
    | some p =>
      obtain ⟨t1, fdp⟩ := p
      rw [hpop] at hpeek
      simp only [Option.some_inj] at hpeek
      injection hpeek with ht hfd2
      have hskip : fd.skipif TokId.lend none = some (false, fd2) := by
        unfold Feed.skipif
        rw [hpop]
        simp only []
        rw [if_neg]
        · rw [hfd2]
        · intro hcon
          apply hne
          rw [← ht]
          exact hcon.1
      rw [TokenFeed_indent_succ, hskip]
  · intro fd1 hskip t fd2 hpeek
    have hind : TokenFeed.indent f (n + 1) fd st = indentLoop f n t.value fd2 st := by
      rw [TokenFeed_indent_succ, hskip]
      simp only []
      rw [hpeek]
    refine ⟨hind, ?_⟩
    intro fd4 st4 hok
    rw [hind] at hok
    exact indentLoop_sound f n t.value fd2 st fd4 st4 hok

/-- C8 counterexample: with a line terminator up next but the following token
not an indentation marker, the combinator performs zero continuation
invocations, contradicting the claimed "one or more": an instrumented
continuation that counts its calls comes back with count 0. -/
theorem TokenFeed_indent_counterexample :
    (Feed.mk none [Token.mk TokId.lend TokVal.null 1, Token.mk TokId.date TokVal.null 2]).peek
      = some (Token.mk TokId.lend TokVal.null 1,
          Feed.mk (some (Token.mk TokId.lend TokVal.null 1))
            [Token.mk TokId.date TokVal.null 2]) ∧
    TokenFeed.indent (fun _ fd (k : Nat) => PRes.ok (fd, k + 1)) 5
        (Feed.mk none [Token.mk TokId.lend TokVal.null 1, Token.mk TokId.date TokVal.null 2]) 0
      = PRes.ok (Feed.mk (some (Token.mk TokId.date TokVal.null 2)) [], 0) := by
  constructor
  · rfl
  · rfl

theorem indentLoop_succ {σ : Type} (f : Nat → Feed → σ → PRes σ (Feed × σ))
    (n : Nat) (v : TokVal) (fd : Feed) (st : σ) :
    indentLoop f (n + 1) v fd st =
      (match fd.skipif TokId.indent (some v) with
       | none => PRes.eos st
       | some (false, fd2) => PRes.ok (fd2, st)
       | some (true, fd2) =>
         match f n fd2 st with
         | .ok (fd3, st3) => indentLoop f n v fd3 st3
         | e => e) := rfl

/-- State-extension predicate on parser outcomes: both normal completion and
the end-of-input carry relate the input state to the output state. -/
def Extends {σ : Type} (Q : σ → σ → Prop) (st : σ) : PRes σ (Feed × σ) → Prop
  | .ok (_, st2) => Q st st2
  | .eos st2 => Q st st2
  | .err _ => True
  | .more => True

theorem extends_of_trans {σ : Type} (Q : σ → σ → Prop)
    (htrans : ∀ a b c : σ, Q a b → Q b c → Q a c)
    (st st1 : σ) (r : PRes σ (Feed × σ)) (h1 : Q st st1) (h2 : Extends Q st1 r) :
    Extends Q st r := by
  cases r with
  | ok a =>
    obtain ⟨fd2, st2⟩ := a
    exact htrans _ _ _ h1 h2
  | eos st2 => exact htrans _ _ _ h1 h2
  | err l => trivial
  | more => trivial

theorem indentLoop_extends {σ : Type} (Q : σ → σ → Prop) (hrefl : ∀ s, Q s s)
    (htrans : ∀ a b c : σ, Q a b → Q b c → Q a c)
    (f : Nat → Feed → σ → PRes σ (Feed × σ))
    (hf : ∀ n fd st, Extends Q st (f n fd st)) :
    ∀ n v fd st, Extends Q st (indentLoop f n v fd st) := by
  intro n
  induction n with
  | zero =>
    intro v fd st
    trivial
  | succ n ih =>
    intro v fd st
    rw [indentLoop_succ]
    cases hsk : fd.skipif TokId.indent (some v) with
    | none => exact hrefl st
    | some p =>
      obtain ⟨b, fd2⟩ := p
      cases b with
      | false => exact hrefl st
      | true =>
        show Extends Q st
          (match f n fd2 st with
           | .ok (fd3, st3) => indentLoop f n v fd3 st3
           | e => e)
        cases hfr : f n fd2 st with
        | ok a =>
          obtain ⟨fd3, st3⟩ := a
          have h1 : Q st st3 := by
            have hh := hf n fd2 st
            rw [hfr] at hh
            exact hh
          exact extends_of_trans Q htrans st st3 _ h1 (ih v fd3 st3)
        | eos st3 =>
          have hh := hf n fd2 st
          rw [hfr] at hh
          exact hh
        | err l => trivial
        | more => trivial

theorem indent_extends {σ : Type} (Q : σ → σ → Prop) (hrefl : ∀ s, Q s s)
    (htrans : ∀ a b c : σ, Q a b → Q b c → Q a c)
    (f : Nat → Feed → σ → PRes σ (Feed × σ))
    (hf : ∀ n fd st, Extends Q st (f n fd st)) :
    ∀ n fd st, Extends Q st (TokenFeed.indent f n fd st) := by
  intro n
  cases n with
  | zero =>
    intro fd st
    trivial
  | succ n =>
    intro fd st
    rw [TokenFeed_indent_succ]
    cases hsk : fd.skipif TokId.lend none with
    | none => exact hrefl st
    | some p =>
      obtain ⟨b, fd2⟩ := p
      cases b with
      | true =>
        show Extends Q st
          (match fd2.peek with
           | none => PRes.eos st
           | some (t, fd3) => indentLoop f n t.value fd3 st)
        cases hpk : fd2.peek with
        | none => exact hrefl st
        | some tp =>
          obtain ⟨t, fd3⟩ := tp
          exact indentLoop_extends Q hrefl htrans f hf n t.value fd3 st
      | false => exact hf n fd2 st

/-- Sign adjustment of an amount by the entry's reversal flag. -/
def revAdj (reverse : Bool) (v : Rat) : Rat := if reverse then -v else v

/-- The operations contributed by a sequence of amount lines of one non-split
dated entry: per line, the debit leg against the first account with the
negated adjusted amount, then the credit leg against the second account with
the adjusted amount, sharing date, currency and comment. -/
def pairOps (dt : PDate) (acc1 : Str) (reverse : Bool)
    (ps : List (Str × Rat × Option Str × Option Str)) : List Op :=
  (ps.map fun p =>
    [Op.mk false dt acc1 (-(revAdj reverse p.2.1)) p.2.2.1 p.2.2.2,
     Op.mk false dt p.1 (revAdj reverse p.2.1) p.2.2.1 p.2.2.2]).join

/-- The state grows by a list of debit/credit pairs. -/
def QPairs (dt : PDate) (acc1 : Str) (reverse : Bool) (st st2 : Config) : Prop :=
  ∃ ps, st2.ops = st.ops ++ pairOps dt acc1 reverse ps

theorem QPairs_refl (dt : PDate) (acc1 : Str) (reverse : Bool) (s : Config) :
    QPairs dt acc1 reverse s s :=
  ⟨[], by simp [pairOps]⟩

theorem pairOps_append (dt : PDate) (acc1 : Str) (reverse : Bool)
    (l1 l2 : List (Str × Rat × Option Str × Option Str)) :
    pairOps dt acc1 reverse (l1 ++ l2) =
      pairOps dt acc1 reverse l1 ++ pairOps dt acc1 reverse l2 := by
  unfold pairOps
  simp [List.map_append]

theorem QPairs_trans (dt : PDate) (acc1 : Str) (reverse : Bool) (a b c : Config)
    (h1 : QPairs dt acc1 reverse a b) (h2 : QPairs dt acc1 reverse b c) :
    QPairs dt acc1 reverse a c := by
  obtain ⟨ps1, hp1⟩ := h1
  obtain ⟨ps2, hp2⟩ := h2
  refine ⟨ps1 ++ ps2, ?_⟩
  rw [hp2, hp1, pairOps_append, List.append_assoc]

theorem parse_op_extends (reverse : Bool) (dt : PDate) (acc1 acc2 : Str) :
    ∀ n fd st, Extends (QPairs dt acc1 reverse) st (parse_op reverse dt acc1 acc2 n fd st) := by
  intro n fd st
  unfold parse_op
  split
  · exact QPairs_refl dt acc1 reverse st
  · trivial
  · rename_i tnum fd1 h1
    split
    · exact QPairs_refl dt acc1 reverse st
    · rename_i curv fd2 h2
      split
      · exact QPairs_refl dt acc1 reverse st
      · rename_i comv fd3 h3
        split
        · exact ⟨[(acc2, tnum.value.toNum, curv.map TokVal.toStr, comv.map TokVal.toStr)],
            by simp [pairOps, revAdj]⟩
        · trivial
        · exact ⟨[(acc2, tnum.value.toNum, curv.map TokVal.toStr, comv.map TokVal.toStr)],
            by simp [pairOps, revAdj]⟩

theorem parse_to_extends (reverse : Bool) (dt : PDate) (acc1 : Str) :
    ∀ n fd st, Extends (QPairs dt acc1 reverse) st (parse_to reverse dt acc1 n fd st) := by
  intro n fd st
  unfold parse_to
  cases h1 : fd.popany [TokId.cid] with
  | eos => exact QPairs_refl dt acc1 reverse st
  | err l => trivial
  | ok a =>
    obtain ⟨tacc2, fd1⟩ := a
    exact indent_extends (QPairs dt acc1 reverse) (QPairs_refl dt acc1 reverse)
      (QPairs_trans dt acc1 reverse) (parse_op reverse dt acc1 tacc2.value.toStr)
      (parse_op_extends reverse dt acc1 tacc2.value.toStr) n fd1 st

/-- C1: inside a non-split dated entry — the split probe failed, the optional
`rev` keyword was or was not consumed for the whole entry, and the first
account was read — every successfully parsed amount line with literal number
`v` appends exactly two operations in order: first against the first account
with amount `-v2`, then against the second account with amount `v2`, where
`v2 = -v` when `rev` was consumed and `v2 = v` otherwise, both operations
sharing the same date, currency and comment; consequently every completed or
input-exhausted run of the entry extends the operation list by exactly such
debit/credit pairs. -/
theorem parse_from_nonsplit_pairs (dt : PDate) (n : Nat) (fd : Feed) (st : Config)
    (fd1 : Feed) (hsplit : fd.skipif TokId.split none = some (false, fd1))
    (reverse : Bool) (fd2 : Feed)
    (hrev : fd1.skipif TokId.rev none = some (reverse, fd2))
    (tacc1 : Token) (fd3 : Feed)
    (hacc1 : fd2.popany [TokId.cid] = FRes.ok (tacc1, fd3)) :
    (∀ (acc2 : Str) (m : Nat) (fdo : Feed) (sto : Config) (fd4 : Feed) (st4 : Config),
       parse_op reverse dt tacc1.value.toStr acc2 m fdo sto = PRes.ok (fd4, st4) →
       ∃ tnum fdx c com, fdo.popany [TokId.number] = FRes.ok (tnum, fdx) ∧
         st4.ops = sto.ops ++
           [Op.mk false dt tacc1.value.toStr
              (-(if reverse then -tnum.value.toNum else tnum.value.toNum)) c com,
            Op.mk false dt acc2
              (if reverse then -tnum.value.toNum else tnum.value.toNum) c com]) ∧
    (∀ fd4 st4, parse_from dt n fd st = PRes.ok (fd4, st4) →
       ∃ ps, st4.ops = st.ops ++ pairOps dt tacc1.value.toStr reverse ps) ∧
    (∀ st4, parse_from dt n fd st = PRes.eos st4 →
       ∃ ps, st4.ops = st.ops ++ pairOps dt tacc1.value.toStr reverse ps) := by
  have hunf : parse_from dt n fd st =
      TokenFeed.indent (parse_to reverse dt tacc1.value.toStr) n fd3 st := by
    unfold parse_from
    rw [hsplit]
    simp only []
    rw [hrev]
    simp only []
    rw [hacc1]
  have hext : Extends (QPairs dt tacc1.value.toStr reverse) st
      (TokenFeed.indent (parse_to reverse dt tacc1.value.toStr) n fd3 st) :=
    indent_extends (QPairs dt tacc1.value.toStr reverse)
      (QPairs_refl dt tacc1.value.toStr reverse)
      (QPairs_trans dt tacc1.value.toStr reverse)
      (parse_to reverse dt tacc1.value.toStr)
      (parse_to_extends reverse dt tacc1.value.toStr) n fd3 st
  refine ⟨?_, ?_, ?_⟩
  · intro acc2 m fdo sto fd4 st4 hok
    unfold parse_op at hok
    cases h1 : fdo.popany [TokId.number] with
    | eos =>
      rw [h1] at hok
      cases hok
    | err l =>
      rw [h1] at hok
      cases hok
    | ok a =>
      obtain ⟨tnum, fdx⟩ := a
      rw [h1] at hok
      simp only [] at hok
      cases h2 : fdx.get TokId.id with
      | none =>
        rw [h2] at hok
        cases hok
      | some b =>
        obtain ⟨curv, fdy⟩ := b
        rw [h2] at hok
        simp only [] at hok
        cases h3 : fdy.get TokId.comment with
        | none =>
          rw [h3] at hok
          cases hok
        | some c =>
          obtain ⟨comv, fdz⟩ := c
          rw [h3] at hok
          simp only [] at hok
          cases h4 : fdz.popany [TokId.lend] with
          | eos =>
            rw [h4] at hok
            cases hok
          | err l =>
            rw [h4] at hok
            cases hok
          | ok d =>
            obtain ⟨tl, fdw⟩ := d
            rw [h4] at hok
            simp only [] at hok
            injection hok with hpair
            injection hpair with hfd hst
            refine ⟨tnum, fdx, curv.map TokVal.toStr, comv.map TokVal.toStr, rfl, ?_⟩
            rw [← hst]
  · intro fd4 st4 hok
    rw [hunf] at hok
    have hh := hext
    rw [hok] at hh
    exact hh
  · intro st4 hok
    rw [hunf] at hok
    have hh := hext
    rw [hok] at hh
    exact hh

/-- C1 witness: the entry `2014-01-01 a:b e:f 5` appends exactly the debit leg
`(a:b, -5)` followed by the credit leg `(e:f, 5)`. -/
theorem parse_from_nonsplit_pairs_witness :
    ∃ ps, (Config.mk none []
        [Op.mk false ⟨2014, 1, 1⟩ "a:b".toList (-5) none none,
         Op.mk false ⟨2014, 1, 1⟩ "e:f".toList 5 none none]).ops =
      Config.init.ops ++ pairOps ⟨2014, 1, 1⟩ "a:b".toList false ps :=
  (parse_from_nonsplit_pairs ⟨2014, 1, 1⟩ 5
      (Feed.mk none [Token.mk TokId.cid (TokVal.str "a:b".toList) 1,
        Token.mk TokId.cid (TokVal.str "e:f".toList) 1,
        Token.mk TokId.number (TokVal.num 5) 1,
        Token.mk TokId.lend TokVal.null 1])
      Config.init
      (Feed.mk (some (Token.mk TokId.cid (TokVal.str "a:b".toList) 1))
        [Token.mk TokId.cid (TokVal.str "e:f".toList) 1,
         Token.mk TokId.number (TokVal.num 5) 1,
         Token.mk TokId.lend TokVal.null 1]) rfl
      false
      (Feed.mk (some (Token.mk TokId.cid (TokVal.str "a:b".toList) 1))
        [Token.mk TokId.cid (TokVal.str "e:f".toList) 1,
         Token.mk TokId.number (TokVal.num 5) 1,
         Token.mk TokId.lend TokVal.null 1]) rfl
      (Token.mk TokId.cid (TokVal.str "a:b".toList) 1)
      (Feed.mk none [Token.mk TokId.cid (TokVal.str "e:f".toList) 1,
        Token.mk TokId.number (TokVal.num 5) 1,
        Token.mk TokId.lend TokVal.null 1]) rfl).2.1
    (Feed.mk none [])
    (Config.mk none []
      [Op.mk false ⟨2014, 1, 1⟩ "a:b".toList (-5) none none,
       Op.mk false ⟨2014, 1, 1⟩ "e:f".toList 5 none none])
    rfl

/-- No token anywhere in the feed is the `split` keyword. -/
def NoSplit (fd : Feed) : Prop :=
  (∀ t, fd.item = some t → t.id ≠ TokId.split) ∧
  (∀ t, t ∈ fd.rest → t.id ≠ TokId.split)

theorem pop_nosplit (fd : Feed) (h : NoSplit fd) (t : Token) (fd2 : Feed)
    (hp : fd.pop = some (t, fd2)) : t.id ≠ TokId.split ∧ NoSplit fd2 := by
  obtain ⟨h1, h2⟩ := h
  unfold Feed.pop at hp
  cases hi : fd.item with
  | some t0 =>
    rw [hi] at hp
    simp only [Option.some_inj] at hp
    injection hp with ht hfd
    constructor
    · rw [← ht]
      exact h1 t0 hi
    · rw [← hfd]
      exact ⟨fun t1 ht1 => Option.noConfusion ht1, h2⟩
  | none =>
    rw [hi] at hp
    cases hr : fd.rest with
    | nil =>
      rw [hr] at hp
      cases hp
    | cons t0 ts =>
      rw [hr] at hp
      simp only [Option.some_inj] at hp
      injection hp with ht hfd
      constructor
      · rw [← ht]
        apply h2 t0
        rw [hr]
        exact List.mem_cons_self t0 ts
      · rw [← hfd]
        refine ⟨fun t1 ht1 => Option.noConfusion ht1, ?_⟩
        intro t1 ht1
        apply h2 t1
        rw [hr]
        exact List.mem_cons_of_mem t0 ht1

theorem peek_nosplit (fd : Feed) (h : NoSplit fd) (t : Token) (fd2 : Feed)
    (hp : fd.peek = some (t, fd2)) : t.id ≠ TokId.split ∧ NoSplit fd2 := by
  unfold Feed.peek at hp
  cases hq : fd.pop with
  | none =>
    rw [hq] at hp
    cases hp
  | some p =>
    obtain ⟨t0, fd0⟩ := p
    rw [hq] at hp
    simp only [Option.some_inj] at hp
    injection hp with ht hfd
    have hh := pop_nosplit fd h t0 fd0 hq
    constructor
    · rw [← ht]
      exact hh.1
    · rw [← hfd]
      refine ⟨?_, hh.2.2⟩
      intro t1 ht1
      have h01 : t0 = t1 := Option.some_inj.1 ht1
      rw [← h01]
      exact hh.1

theorem skipif_nosplit (fd : Feed) (h : NoSplit fd) (i : TokId) (v : Option TokVal)
    (b : Bool) (fd2 : Feed) (hs : fd.skipif i v = some (b, fd2)) : NoSplit fd2 := by
  unfold Feed.skipif at hs
  cases hq : fd.pop with
  | none =>
    rw [hq] at hs
    cases hs
  | some p =>
    obtain ⟨t0, fd0⟩ := p
    rw [hq] at hs
    simp only [] at hs
    have hh := pop_nosplit fd h t0 fd0 hq
    split at hs
    · injection hs with hpair
      injection hpair with hb hfd
      rw [← hfd]
      exact hh.2
    · injection hs with hpair
      injection hpair with hb hfd
      rw [← hfd]
      refine ⟨?_, hh.2.2⟩
      intro t1 ht1
      have h01 : t0 = t1 := Option.some_inj.1 ht1
      rw [← h01]
      exact hh.1

/-- Under `NoSplit`, the probe for the `split` keyword can never succeed. -/
theorem skipif_split_false (fd : Feed) (h : NoSplit fd) (fd2 : Feed)
    (hs : fd.skipif TokId.split none = some (true, fd2)) : False := by
  unfold Feed.skipif at hs
  cases hq : fd.pop with
  | none =>
    rw [hq] at hs
    cases hs
  | some p =>
    obtain ⟨t0, fd0⟩ := p
    rw [hq] at hs
    simp only [] at hs
    have hh := pop_nosplit fd h t0 fd0 hq
    split at hs
    · rename_i hcond
      exact hh.1 hcond.1
    · injection hs with hpair
      injection hpair with hb hfd
      exact Bool.noConfusion hb

theorem nextis_nosplit (fd : Feed) (h : NoSplit fd) (i : TokId) (b : Bool) (fd2 : Feed)
    (hn : fd.nextis i = some (b, fd2)) : NoSplit fd2 := by
  unfold Feed.nextis at hn
  cases hq : fd.peek with
  | none =>
    rw [hq] at hn
    cases hn
  | some p =>
    obtain ⟨t0, fd0⟩ := p
    rw [hq] at hn
    simp only [Option.some_inj] at hn
    injection hn with hb hfd
    rw [← hfd]
    exact (peek_nosplit fd h t0 fd0 hq).2

theorem get_nosplit (fd : Feed) (h : NoSplit fd) (i : TokId) (ov : Option TokVal)
    (fd2 : Feed) (hg : fd.get i = some (ov, fd2)) : NoSplit fd2 := by
  unfold Feed.get at hg
  cases hn : fd.nextis i with
  | none =>
    rw [hn] at hg
    cases hg
  | some p =>
    obtain ⟨b, fd0⟩ := p
    rw [hn] at hg
    have h0 : NoSplit fd0 := nextis_nosplit fd h i b fd0 hn
    cases b with
    | false =>
      simp only [Option.some_inj] at hg
      injection hg with hov hfd
      rw [← hfd]
      exact h0
    | true =>
      simp only [] at hg
      cases hp2 : fd0.pop with
      | none =>
        rw [hp2] at hg
        cases hg
      | some q =>
        obtain ⟨t1, fd3⟩ := q
        rw [hp2] at hg
        simp only [Option.some_inj] at hg
        injection hg with hov hfd
        rw [← hfd]
        exact (pop_nosplit fd0 h0 t1 fd3 hp2).2

theorem popany_nosplit (fd : Feed) (h : NoSplit fd) (ids : List TokId) (t : Token)
    (fd2 : Feed) (hp : fd.popany ids = FRes.ok (t, fd2)) :
    t.id ≠ TokId.split ∧ NoSplit fd2 := by
  unfold Feed.popany at hp
  cases hq : fd.pop with
  | none =>
    rw [hq] at hp
    cases hp
  | some p =>
    obtain ⟨t0, fd0⟩ := p
    rw [hq] at hp
    simp only [] at hp
    have hh := pop_nosplit fd h t0 fd0 hq
    split at hp
    · injection hp with hpair
      injection hpair with ht hfd
      constructor
      · rw [← ht]
        exact hh.1
      · rw [← hfd]
        exact hh.2
    · cases hp

/-- State extension whose successful outcomes also keep the feed split-free. -/
def ExtendsW {σ : Type} (Q : σ → σ → Prop) (st : σ) : PRes σ (Feed × σ) → Prop
  | .ok (fd2, st2) => NoSplit fd2 ∧ Q st st2
  | .eos st2 => Q st st2
  | .err _ => True
  | .more => True

theorem extendsW_of_trans {σ : Type} (Q : σ → σ → Prop)
    (htrans : ∀ a b c : σ, Q a b → Q b c → Q a c)
    (st st1 : σ) (r : PRes σ (Feed × σ)) (h1 : Q st st1) (h2 : ExtendsW Q st1 r) :
    ExtendsW Q st r := by
  cases r with
  | ok a =>
    obtain ⟨fd2, st2⟩ := a
    exact ⟨h2.1, htrans _ _ _ h1 h2.2⟩
  | eos st2 => exact htrans _ _ _ h1 h2
  | err l => trivial
  | more => trivial

theorem indentLoopW {σ : Type} (Q : σ → σ → Prop) (hrefl : ∀ s, Q s s)
    (htrans : ∀ a b c : σ, Q a b → Q b c → Q a c)
    (f : Nat → Feed → σ → PRes σ (Feed × σ))
    (hf : ∀ n fd st, NoSplit fd → ExtendsW Q st (f n fd st)) :
    ∀ n v fd st, NoSplit fd → ExtendsW Q st (indentLoop f n v fd st) := by
  intro n
  induction n with
  | zero =>
    intro v fd st hW
    trivial
  | succ n ih =>
    intro v fd st hW
    rw [indentLoop_succ]
    cases hsk : fd.skipif TokId.indent (some v) with
    | none => exact hrefl st
    | some p =>
      obtain ⟨b, fd2⟩ := p
      have hW2 : NoSplit fd2 := skipif_nosplit fd hW TokId.indent (some v) b fd2 hsk
      cases b with
      | false => exact ⟨hW2, hrefl st⟩
      | true =>
        show ExtendsW Q st
          (match f n fd2 st with
           | .ok (fd3, st3) => indentLoop f n v fd3 st3
           | e => e)
        cases hfr : f n fd2 st with
        | ok a =>
          obtain ⟨fd3, st3⟩ := a
          have hh := hf n fd2 st hW2
          rw [hfr] at hh
          exact extendsW_of_trans Q htrans st st3 _ hh.2 (ih v fd3 st3 hh.1)
        | eos st3 =>
          have hh := hf n fd2 st hW2
          rw [hfr] at hh
          exact hh
        | err l => trivial
        | more => trivial

theorem indentW {σ : Type} (Q : σ → σ → Prop) (hrefl : ∀ s, Q s s)
    (htrans : ∀ a b c : σ, Q a b → Q b c → Q a c)
    (f : Nat → Feed → σ → PRes σ (Feed × σ))
    (hf : ∀ n fd st, NoSplit fd → ExtendsW Q st (f n fd st)) :
    ∀ n fd st, NoSplit fd → ExtendsW Q st (TokenFeed.indent f n fd st) := by
  intro n
  cases n with
  | zero =>
    intro fd st hW
    trivial
  | succ n =>
    intro fd st hW
    rw [TokenFeed_indent_succ]
    cases hsk : fd.skipif TokId.lend none with
    | none => exact hrefl st
    | some p =>
      obtain ⟨b, fd2⟩ := p
      have hW2 : NoSplit fd2 := skipif_nosplit fd hW TokId.lend none b fd2 hsk
      cases b with
      | true =>
        show ExtendsW Q st
          (match fd2.peek with
           | none => PRes.eos st
           | some (t, fd3) => indentLoop f n t.value fd3 st)
        cases hpk : fd2.peek with
        | none => exact hrefl st
        | some tp =>
          obtain ⟨t, fd3⟩ := tp
          exact indentLoopW Q hrefl htrans f hf n t.value fd3 st
            (peek_nosplit fd2 hW2 t fd3 hpk).2
      | false => exact hf n fd2 st hW2

/-- A complete group of appended operations: a lone initial operation dated at
the epoch sentinel, or a debit/credit pair sharing date, currency and comment
with opposite amounts. -/
def PairGroup (g : List Op) : Prop :=
  (∃ acc v c m, g = [Op.mk true INITDATE acc v c m]) ∨
  (∃ dt a1 a2 v c m, g = [Op.mk false dt a1 (-v) c m, Op.mk false dt a2 v c m])

/-- The operation list grows by a concatenation of complete groups. -/
def QPairGroups (st st2 : Config) : Prop :=
  ∃ gs, st2.ops = st.ops ++ List.flatten gs ∧ ∀ g, g ∈ gs → PairGroup g

theorem QPairGroups_refl (s : Config) : QPairGroups s s :=
  ⟨[], by simp, fun g hg => absurd hg (List.not_mem_nil g)⟩

theorem QPairGroups_rfl_ops (st st2 : Config) (h : st2.ops = st.ops) :
    QPairGroups st st2 :=
  ⟨[], by rw [h]; simp, fun g hg => absurd hg (List.not_mem_nil g)⟩

theorem QPairGroups_single (st st2 : Config) (g : List Op)
    (h : st2.ops = st.ops ++ g) (hg : PairGroup g) : QPairGroups st st2 :=
  ⟨[g], by rw [h]; simp, fun g2 hg2 => by
    rw [List.mem_singleton] at hg2
    rw [hg2]
    exact hg⟩

theorem QPairGroups_trans (a b c : Config)
    (h1 : QPairGroups a b) (h2 : QPairGroups b c) : QPairGroups a c := by
  obtain ⟨gs1, hg1, ha1⟩ := h1
  obtain ⟨gs2, hg2, ha2⟩ := h2
  refine ⟨gs1 ++ gs2, ?_, ?_⟩
  · rw [hg2, hg1, List.flatten_append, List.append_assoc]
  · intro g hg
    rcases List.mem_append.1 hg with h | h
    · exact ha1 g h
    · exact ha2 g h

theorem parse_rate_line_pairsW :
    ∀ n fd st, NoSplit fd → ExtendsW QPairGroups st (parse_rate_line n fd st) := by
  intro n fd st hW
  unfold parse_rate_line
  split
  · exact QPairGroups_refl st
  · trivial
  · rename_i tcur fd1 h1
    have hW1 := (popany_nosplit fd hW [TokId.id] tcur fd1 h1).2
    split
    · exact QPairGroups_refl st
    · trivial
    · rename_i tnum fd2 h2
      have hW2 := (popany_nosplit fd1 hW1 [TokId.number] tnum fd2 h2).2
      split
      · exact QPairGroups_rfl_ops st _ rfl
      · trivial
      · rename_i tl fd3 h3
        exact ⟨(popany_nosplit fd2 hW2 [TokId.lend] tl fd3 h3).2,
          QPairGroups_rfl_ops st _ rfl⟩

theorem parse_initial_line_pairsW :
    ∀ n fd st, NoSplit fd → ExtendsW QPairGroups st (parse_initial_line n fd st) := by
  intro n fd st hW
  unfold parse_initial_line
  split
  · exact QPairGroups_refl st
  · trivial
  · rename_i tacc fd1 h1
    have hW1 := (popany_nosplit fd hW [TokId.cid] tacc fd1 h1).2
    split
    · exact QPairGroups_refl st
    · trivial
    · rename_i tnum fd2 h2
      have hW2 := (popany_nosplit fd1 hW1 [TokId.number] tnum fd2 h2).2
      split
      · exact QPairGroups_refl st
      · rename_i curv fd3 h3
        have hW3 := get_nosplit fd2 hW2 TokId.id curv fd3 h3
        split
        · exact QPairGroups_refl st
        · rename_i comv fd4 h4
          have hW4 := get_nosplit fd3 hW3 TokId.comment comv fd4 h4
          split
          · exact QPairGroups_single st _ _ rfl
              (Or.inl ⟨tacc.value.toStr, tnum.value.toNum,
                curv.map TokVal.toStr, comv.map TokVal.toStr, rfl⟩)
          · trivial
          · rename_i tl fd5 h5
            exact ⟨(popany_nosplit fd4 hW4 [TokId.lend] tl fd5 h5).2,
              QPairGroups_single st _ _ rfl
                (Or.inl ⟨tacc.value.toStr, tnum.value.toNum,
                  curv.map TokVal.toStr, comv.map TokVal.toStr, rfl⟩)⟩

theorem parse_op_pairsW (reverse : Bool) (dt : PDate) (acc1 acc2 : Str) :
    ∀ n fd st, NoSplit fd →
    ExtendsW QPairGroups st (parse_op reverse dt acc1 acc2 n fd st) := by
  intro n fd st hW
  unfold parse_op
  split
  · exact QPairGroups_refl st
  · trivial
  · rename_i tnum fd1 h1
    have hW1 := (popany_nosplit fd hW [TokId.number] tnum fd1 h1).2
    split
    · exact QPairGroups_refl st
    · rename_i curv fd2 h2
      have hW2 := get_nosplit fd1 hW1 TokId.id curv fd2 h2
      split
      · exact QPairGroups_refl st
      · rename_i comv fd3 h3
        have hW3 := get_nosplit fd2 hW2 TokId.comment comv fd3 h3
        split
        · exact QPairGroups_single st _ _ rfl
            (Or.inr ⟨dt, acc1, acc2,
              if reverse then -tnum.value.toNum else tnum.value.toNum,
              curv.map TokVal.toStr, comv.map TokVal.toStr, rfl⟩)
        · trivial
        · rename_i tl fd4 h4
          exact ⟨(popany_nosplit fd3 hW3 [TokId.lend] tl fd4 h4).2,
            QPairGroups_single st _ _ rfl
              (Or.inr ⟨dt, acc1, acc2,
                if reverse then -tnum.value.toNum else tnum.value.toNum,
                curv.map TokVal.toStr, comv.map TokVal.toStr, rfl⟩)⟩

theorem parse_to_pairsW (reverse : Bool) (dt : PDate) (acc1 : Str) :
    ∀ n fd st, NoSplit fd →
    ExtendsW QPairGroups st (parse_to reverse dt acc1 n fd st) := by
  intro n fd st hW
  unfold parse_to
  split
  · exact QPairGroups_refl st
  · trivial
  · rename_i tacc2 fd1 h1
    exact indentW QPairGroups QPairGroups_refl QPairGroups_trans
      (parse_op reverse dt acc1 tacc2.value.toStr)
      (parse_op_pairsW reverse dt acc1 tacc2.value.toStr) n fd1 st
      (popany_nosplit fd hW [TokId.cid] tacc2 fd1 h1).2

theorem parse_from_pairsW (dt : PDate) :
    ∀ n fd st, NoSplit fd → ExtendsW QPairGroups st (parse_from dt n fd st) := by
  intro n fd st hW
  unfold parse_from
  split
  · exact QPairGroups_refl st
  · rename_i fd1 h1
    exact (skipif_split_false fd hW fd1 h1).elim
  · rename_i fd1 h1
    have hW1 : NoSplit fd1 := skipif_nosplit fd hW TokId.split none false fd1 h1
    split
    · exact QPairGroups_refl st
    · rename_i reverse fd2 h2
      have hW2 : NoSplit fd2 := skipif_nosplit fd1 hW1 TokId.rev none reverse fd2 h2
      split
      · exact QPairGroups_refl st
      · trivial
      · rename_i tacc1 fd3 h3
        exact indentW QPairGroups QPairGroups_refl QPairGroups_trans
          (parse_to reverse dt tacc1.value.toStr)
          (parse_to_pairsW reverse dt tacc1.value.toStr) n fd3 st
          (popany_nosplit fd2 hW2 [TokId.cid] tacc1 fd3 h3).2

theorem parse_root_pairsW :
    ∀ n fd st, NoSplit fd → ExtendsW QPairGroups st (parse_root n fd st) := by
  intro n fd st hW
  unfold parse_root
  split
  · exact QPairGroups_refl st
  · trivial
  · rename_i tok fd1 h1
    have hW1 := (popany_nosplit fd hW
      [TokId.rate, TokId.currency, TokId.initial, TokId.date, TokId.comment] tok fd1 h1).2
    split
    · split
      · exact QPairGroups_refl st
      · trivial
      · rename_i tcur fd2 h2
        have hW2 := (popany_nosplit fd1 hW1 [TokId.id] tcur fd2 h2).2
        split
        · exact QPairGroups_rfl_ops st _ rfl
        · trivial
        · rename_i tl fd3 h3
          exact ⟨(popany_nosplit fd2 hW2 [TokId.lend] tl fd3 h3).2,
            QPairGroups_rfl_ops st _ rfl⟩
    · split
      · exact indentW QPairGroups QPairGroups_refl QPairGroups_trans parse_rate_line
          parse_rate_line_pairsW n fd1 st hW1
      · split
        · exact indentW QPairGroups QPairGroups_refl QPairGroups_trans parse_initial_line
            parse_initial_line_pairsW n fd1 st hW1
        · split
          · exact indentW QPairGroups QPairGroups_refl QPairGroups_trans
              (parse_from tok.value.toDate) (parse_from_pairsW tok.value.toDate)
              n fd1 st hW1
          · split
            · exact QPairGroups_refl st
            · trivial
            · rename_i tl fd2 h2
              exact ⟨(popany_nosplit fd1 hW1 [TokId.lend] tl fd2 h2).2,
                QPairGroups_refl st⟩

/-- Every successful run of the top-level loop over a split-free feed extends
the operation list by complete groups only. -/
theorem parseLoop_pairs :
    ∀ n fd st, NoSplit fd → ∀ cfg, parseLoop n fd st = PRes.ok cfg →
    QPairGroups st cfg := by
  intro n
  induction n with
  | zero =>
    intro fd st hW cfg h
    cases h
  | succ n ih =>
    intro fd st hW cfg h
    unfold parseLoop at h
    cases hr : parse_root n fd st with
    | ok a =>
      obtain ⟨fd2, st2⟩ := a
      rw [hr] at h
      simp only [] at h
      have hh := parse_root_pairsW n fd st hW
      rw [hr] at hh
      exact QPairGroups_trans st st2 cfg hh.2 (ih fd2 st2 hh.1 cfg h)
    | eos st2 =>
      rw [hr] at h
      simp only [] at h
      injection h with hcfg
      have hh := parse_root_pairsW n fd st hW
      rw [hr] at hh
      rw [← hcfg]
      exact hh
    | err l =>
      rw [hr] at h
      exact PRes.noConfusion h
    | more =>
      rw [hr] at h
      exact PRes.noConfusion h

/-- The top-level loop never surfaces the end-of-input outcome: it is caught
and converted into normal completion with the state collected so far. -/
theorem parseLoop_never_eos :
    ∀ n fd st st2, parseLoop n fd st ≠ PRes.eos st2 := by
  intro n
  induction n with
  | zero =>
    intro fd st st2 h
    cases h
  | succ n ih =>
    intro fd st st2 h
    unfold parseLoop at h
    cases hr : parse_root n fd st with
    | ok a =>
      obtain ⟨fd2, st2b⟩ := a
      rw [hr] at h
      simp only [] at h
      exact ih fd2 st2b st2 h
    | eos s =>
      rw [hr] at h
      exact PRes.noConfusion h
    | err l =>
      rw [hr] at h
      exact PRes.noConfusion h
    | more =>
      rw [hr] at h
      exact PRes.noConfusion h

/-- The two legs of a pair are appended in one step: an amount line of a
non-split dated entry either contributes nothing (no completed outcome or
end-of-input before the amount) or both legs at once, in every outcome. -/
theorem parse_op_atomic (reverse : Bool) (dt : PDate) (acc1 acc2 : Str)
    (n : Nat) (fd : Feed) (st : Config) :
    (∀ fd4 st4, parse_op reverse dt acc1 acc2 n fd st = PRes.ok (fd4, st4) →
       ∃ v c m, st4.ops = st.ops ++
         [Op.mk false dt acc1 (-v) c m, Op.mk false dt acc2 v c m]) ∧
    (∀ st4, parse_op reverse dt acc1 acc2 n fd st = PRes.eos st4 →
       st4.ops = st.ops ∨ ∃ v c m, st4.ops = st.ops ++
         [Op.mk false dt acc1 (-v) c m, Op.mk false dt acc2 v c m]) := by
  constructor
  · intro fd4 st4 hok
    unfold parse_op at hok
    cases h1 : fd.popany [TokId.number] with
    | eos =>
      rw [h1] at hok
      cases hok
    | err l =>
      rw [h1] at hok
      cases hok
    | ok a =>
      obtain ⟨tnum, fdx⟩ := a
      rw [h1] at hok
      simp only [] at hok
      cases h2 : fdx.get TokId.id with
      | none =>
        rw [h2] at hok
        cases hok
      | some b =>
        obtain ⟨curv, fdy⟩ := b
        rw [h2] at hok
        simp only [] at hok
        cases h3 : fdy.get TokId.comment with
        | none =>
          rw [h3] at hok
          cases hok
        | some c =>
          obtain ⟨comv, fdz⟩ := c
          rw [h3] at hok
          simp only [] at hok
          cases h4 : fdz.popany [TokId.lend] with
          | eos =>
            rw [h4] at hok
            cases hok
          | err l =>
            rw [h4] at hok
            cases hok
          | ok d =>
            obtain ⟨tl, fdw⟩ := d
            rw [h4] at hok
            simp only [] at hok
            injection hok with hpair
            injection hpair with hfd hst
            exact ⟨if reverse then -tnum.value.toNum else tnum.value.toNum,
              curv.map TokVal.toStr, comv.map TokVal.toStr, by rw [← hst]⟩
  · intro st4 heos
    unfold parse_op at heos
    cases h1 : fd.popany [TokId.number] with
    | eos =>
      rw [h1] at heos
      injection heos with hst
      exact Or.inl (by rw [← hst])
    | err l =>
      rw [h1] at heos
      cases heos
    | ok a =>
      obtain ⟨tnum, fdx⟩ := a
      rw [h1] at heos
      simp only [] at heos
      cases h2 : fdx.get TokId.id with
      | none =>
        rw [h2] at heos
        injection heos with hst
        exact Or.inl (by rw [← hst])
      | some b =>
        obtain ⟨curv, fdy⟩ := b
        rw [h2] at heos
        simp only [] at heos
        cases h3 : fdy.get TokId.comment with
        | none =>
          rw [h3] at heos
          injection heos with hst
          exact Or.inl (by rw [← hst])
        | some c =>
          obtain ⟨comv, fdz⟩ := c
          rw [h3] at heos
          simp only [] at heos
          cases h4 : fdz.popany [TokId.lend] with
          | eos =>
            rw [h4] at heos
            injection heos with hst
            refine Or.inr ⟨if reverse then -tnum.value.toNum else tnum.value.toNum,
              curv.map TokVal.toStr, comv.map TokVal.toStr, ?_⟩
            rw [← hst]
          | err l =>
            rw [h4] at heos
            cases heos
          | ok d =>
            obtain ⟨tl, fdw⟩ := d
            rw [h4] at heos
            cases heos

/-- C10: truncating the input cannot leave a half-recorded transfer. First,
`parse` never surfaces the end-of-input outcome: the loop catches it and
returns the configuration collected so far. Second, the amount line of a
non-split dated entry appends its debit and credit legs in one step, in every
outcome — the end-of-input outcome carries either both legs or neither, never
one. Third, for every split-free token stream, the operation list of a
completed parse decomposes into complete groups: lone epoch-dated initial
operations and adjacent debit/credit pairs sharing date, currency and comment
with opposite amounts. -/
theorem parse_truncation_safe :
    (∀ fuel toks st2, parse fuel toks ≠ PRes.eos st2) ∧
    (∀ (reverse : Bool) (dt : PDate) (acc1 acc2 : Str) (n : Nat) (fd : Feed)
       (st : Config),
      (∀ fd4 st4, parse_op reverse dt acc1 acc2 n fd st = PRes.ok (fd4, st4) →
        ∃ v c m, st4.ops = st.ops ++
          [Op.mk false dt acc1 (-v) c m, Op.mk false dt acc2 v c m]) ∧
      (∀ st4, parse_op reverse dt acc1 acc2 n fd st = PRes.eos st4 →
        st4.ops = st.ops ∨ ∃ v c m, st4.ops = st.ops ++
          [Op.mk false dt acc1 (-v) c m, Op.mk false dt acc2 v c m])) ∧
    (∀ fuel toks cfg, (∀ t, t ∈ toks → t.id ≠ TokId.split) →
      parse fuel toks = PRes.ok cfg →
      ∃ gs, cfg.ops = List.flatten gs ∧ ∀ g, g ∈ gs → PairGroup g) := by
  refine ⟨?_, ?_, ?_⟩
  · intro fuel toks st2
    exact parseLoop_never_eos fuel (mkFeed toks) Config.init st2
  · intro reverse dt acc1 acc2 n fd st
    exact parse_op_atomic reverse dt acc1 acc2 n fd st
  · intro fuel toks cfg hns hok
    have hW : NoSplit (mkFeed toks) :=
      ⟨fun t ht => Option.noConfusion ht, hns⟩
    obtain ⟨gs, hg, ha⟩ := parseLoop_pairs fuel (mkFeed toks) Config.init hW cfg hok
    refine ⟨gs, ?_, ha⟩
    have hinit : Config.init.ops = [] := rfl
    rw [hinit, List.nil_append] at hg
    exact hg

/-- C10 witness: the split-free stream of the single dated entry
`2014-01-01 a:pocket e:food 200` parses to a configuration whose operation
list decomposes into one complete debit/credit pair. -/
theorem parse_truncation_safe_witness :
    ∃ gs, (Config.mk none []
        [Op.mk false ⟨2014, 1, 1⟩ "a:pocket".toList (-200) none none,
         Op.mk false ⟨2014, 1, 1⟩ "e:food".toList 200 none none]).ops =
      List.flatten gs ∧ ∀ g, g ∈ gs → PairGroup g :=
  parse_truncation_safe.2.2 10
    [Token.mk TokId.date (TokVal.date ⟨2014, 1, 1⟩) 1,
     Token.mk TokId.cid (TokVal.str "a:pocket".toList) 1,
     Token.mk TokId.cid (TokVal.str "e:food".toList) 1,
     Token.mk TokId.number (TokVal.num 200) 1,
     Token.mk TokId.lend TokVal.null 1]
    (Config.mk none []
        [Op.mk false ⟨2014, 1, 1⟩ "a:pocket".toList (-200) none none,
         Op.mk false ⟨2014, 1, 1⟩ "e:food".toList 200 none none])
    (by decide) rfl

/-- C8 witness: with a number token up next (not a line terminator), the
combinator runs the instrumented continuation exactly once inline. -/
theorem TokenFeed_indent_spec_witness :
    TokenFeed.indent (fun _ fd (k : Nat) => PRes.ok (fd, k + 1)) 4
        (Feed.mk none [Token.mk TokId.number (TokVal.num 1) 1]) 0
      = (fun _ fd (k : Nat) => PRes.ok (fd, k + 1)) 3
          (Feed.mk (some (Token.mk TokId.number (TokVal.num 1) 1)) []) 0 :=
  (TokenFeed_indent_spec (fun _ fd (k : Nat) => PRes.ok (fd, k + 1)) 3
      (Feed.mk none [Token.mk TokId.number (TokVal.num 1) 1]) 0).1
    (Token.mk TokId.number (TokVal.num 1) 1)
    (Feed.mk (some (Token.mk TokId.number (TokVal.num 1) 1)) []) rfl (by decide)
